import Mathlib

/-!
# Verification of the causal-hub learning-and-inference engine

A shallow embedding of the causal-hub core: the canonical dataset layer,
the directed-graph separation oracle, maximum-likelihood fitting and
ancestral sampling for categorical Bayesian networks, EM over interval
evidence, the Structural-EM hill-climbing loop, incomplete-table fitting,
and model persistence.  The engine implementation itself is not shipped
under `src/` (only its Python test-suite and auxiliary tooling are), so
every definition below is modelled from the specification's description of
the corresponding component, instantiated on the concrete inputs that the
test-suite exercises.

Vertex labels and category values are opaque, totally-ordered identifiers
(strings); they are embedded as their character lists, whose lexicographic
order is exactly the string order and is kernel-computable.
-/

namespace CausalHub

/-- A label (vertex label or category value): an opaque, totally-ordered
identifier, embedded as the character list of the string. -/
abbrev Label := List Char

/-- Embed a string literal as a `Label`. -/
def str (s : String) : Label := s.toList

/-! ## Canonical dataset layer

Modelled from the spec: construction from raw tabular input performs
per-column state-space canonicalization (sorted union of observed values
and any declared superset), integer re-coding of categorical cells, and
`to_pandas` decodes the integer codes back through the canonical state
space. -/

/-- Insert an element into a strictly sorted list, keeping it strictly
sorted (duplicates are dropped). -/
def insertDedup {α : Type} [LinearOrder α] (x : α) : List α → List α
  | [] => [x]
  | y :: ys =>
    if x = y then y :: ys
    else if x < y then x :: y :: ys
    else y :: insertDedup x ys

/-- Sort a list and drop duplicates (insertion sort). -/
def sortDedup {α : Type} [LinearOrder α] (l : List α) : List α :=
  l.foldr insertDedup []

/-- The index of the first occurrence of an element in a list (`0` when
absent past the end). -/
def idxOf {α : Type} [DecidableEq α] (a : α) : List α → Nat
  | [] => 0
  | x :: xs => if x = a then 0 else idxOf a xs + 1

/-- Modelled from the spec: per-column state-space canonicalization is the
sorted, deduplicated union of the observed values and the declared
category list. -/
def canonicalStates (observed declared : List Label) : List Label :=
  sortDedup (observed ++ declared)

/-- A raw labeled categorical column as handed to `from_pandas`: the pandas
column label, its declared category list (`cats`, possibly a superset of
what is observed) and the observed values. -/
structure CatCol where
  label : Label
  cats : List Label
  values : List Label
  deriving DecidableEq, Repr

/-- The canonical states of one raw column. -/
def CatCol.states (c : CatCol) : List Label :=
  canonicalStates c.values c.cats

/-- Modelled from the spec: integer re-coding of categorical cells — the
code of a cell is the index of its state in the column's canonical
(sorted) state space. -/
def CatCol.codes (c : CatCol) : List Nat :=
  c.values.map (fun v => idxOf v c.states)

/-- A canonical categorical table: for each column, its label, its
canonical state space and the integer-coded cells (column-major). -/
structure CatTable where
  columns : List (Label × List Label × List Nat)
  deriving DecidableEq, Repr

/-- Modelled from the spec: `CatTable.from_pandas` canonicalizes every
column's state space and re-codes its cells. -/
def CatTable.from_pandas (cols : List CatCol) : CatTable :=
  ⟨cols.map (fun c => (c.label, c.states, c.codes))⟩

/-- The column labels of a canonical table. -/
def CatTable.labels (t : CatTable) : List Label :=
  t.columns.map (·.1)

/-- The canonical state space of a named column. -/
def CatTable.states (t : CatTable) (l : Label) : List Label :=
  ((t.columns.find? (·.1 = l)).map (·.2.1)).getD []

/-- Modelled from the spec: `to_pandas` decodes each integer code back to
its state label through the canonical state space, and declares the
canonical (sorted) state space as the column's category list. -/
def CatTable.to_pandas (t : CatTable) : List CatCol :=
  t.columns.map (fun c => ⟨c.1, c.2.1, c.2.2.map (fun i => c.2.1.getD i [])⟩)

/-- The number of rows of a canonical categorical table. -/
def CatTable.sampleSize (t : CatTable) : Nat :=
  ((t.columns.head?).map (fun c => c.2.2.length)).getD 0

/-- The row-major integer-coded value matrix of a table (`values()` in the
Python API). -/
def CatTable.valuesMatrix (t : CatTable) : List (List Nat) :=
  (List.range t.sampleSize).map (fun i => t.columns.map (fun c => c.2.2.getD i 0))

/-- A raw labeled trajectory as handed to `CatTrj.from_pandas`: the
(isolated) time column plus the categorical columns. -/
structure CatTrjRaw where
  times : List ℚ
  cols : List CatCol
  deriving DecidableEq, Repr

/-- A canonical categorical trajectory: the time column plus the canonical
categorical table of the state columns. -/
structure CatTrj where
  times : List ℚ
  table : CatTable
  deriving DecidableEq, Repr

/-- Modelled from the spec: trajectory construction isolates the time
column and canonicalizes the categorical columns. -/
def CatTrj.from_pandas (r : CatTrjRaw) : CatTrj :=
  ⟨r.times, CatTable.from_pandas r.cols⟩

/-- Convert a canonical trajectory back to labeled form. -/
def CatTrj.to_pandas (t : CatTrj) : CatTrjRaw :=
  ⟨t.times, t.table.to_pandas⟩

/-- The default (empty) raw column. -/
def defaultCol : CatCol := ⟨[], [], []⟩

/-- The `k`-th raw column of a raw trajectory. -/
def colAt (r : CatTrjRaw) (k : Nat) : CatCol := r.cols.getD k defaultCol

/-- Modelled from the spec: a trajectory collection computes the union
state space of each column across all of its trajectories — the sorted,
deduplicated union of every trajectory's observed values and declared
categories for that column. -/
def unionStates (rs : List CatTrjRaw) (k : Nat) : List Label :=
  sortDedup (rs.foldr (fun r acc => (colAt r k).values ++ (colAt r k).cats ++ acc) [])

/-- A canonical collection of categorical trajectories sharing one union
state space per column. -/
structure CatTrjs where
  trjs : List CatTrj
  deriving DecidableEq, Repr

/-- Modelled from the spec: `CatTrjs.from_pandas` re-codes every
trajectory's cells against the per-column union state space of the whole
collection. -/
def CatTrjs.from_pandas (rs : List CatTrjRaw) : CatTrjs :=
  ⟨rs.map (fun r =>
    ⟨r.times, ⟨(List.range ((rs.headD ⟨[], []⟩).cols.length)).map (fun k =>
      ((colAt r k).label, unionStates rs k,
        (colAt r k).values.map (fun v => idxOf v (unionStates rs k))))⟩⟩)⟩

/-- Convert a canonical trajectory collection back to labeled form, one
raw trajectory per canonical trajectory. -/
def CatTrjs.to_pandas (ts : CatTrjs) : List CatTrjRaw :=
  ts.trjs.map CatTrj.to_pandas

/-- A raw labeled continuous column (Gaussian data is stateless
numerically: no category canonicalization happens). -/
structure GaussCol where
  label : Label
  values : List ℚ
  deriving DecidableEq, Repr

/-- A canonical Gaussian table. -/
structure GaussTable where
  columns : List GaussCol
  deriving DecidableEq, Repr

/-- Modelled from the spec: Gaussian cells are floating-point and pass
through construction unchanged. -/
def GaussTable.from_pandas (cols : List GaussCol) : GaussTable := ⟨cols⟩

/-- Convert a canonical Gaussian table back to labeled form. -/
def GaussTable.to_pandas (t : GaussTable) : List GaussCol := t.columns

/-! ### Test fixtures for the dataset layer

The concrete inputs of `test_categorical_trajectories` and
`test_categorical_trajectories_with_states`. -/

/-- The raw trajectory of the trajectory tests, with the declared
unobserved-state supersets `column_1 ↦ (A,B,C,D)`, `column_2 ↦ (X,Y,Z,W)`. -/
def trjDfStates : CatTrjRaw :=
  ⟨[0, 1, 2, 3, 4],
   [⟨str "column_1", [str "A", str "B", str "C", str "D"],
      [str "A", str "A", str "B", str "C", str "C"]⟩,
    ⟨str "column_2", [str "X", str "Y", str "Z", str "W"],
      [str "X", str "Y", str "Y", str "Y", str "Z"]⟩]⟩

/-- The same raw trajectory without a declared superset (categories are
the sorted observed values, as pandas infers them). -/
def trjDfPlain : CatTrjRaw :=
  ⟨[0, 1, 2, 3, 4],
   [⟨str "column_1", [str "A", str "B", str "C"],
      [str "A", str "A", str "B", str "C", str "C"]⟩,
    ⟨str "column_2", [str "X", str "Y", str "Z"],
      [str "X", str "Y", str "Y", str "Y", str "Z"]⟩]⟩

/-- The two-trajectory input of `test_categorical_trajectories_with_states`. -/
def trjsDfsStates : List CatTrjRaw := [trjDfStates, trjDfStates]

/-- The two-trajectory input of `test_categorical_trajectories`. -/
def trjsDfsPlain : List CatTrjRaw := [trjDfPlain, trjDfPlain]

/-- The `column_2` raw column with the declared superset `(X, Y, Z, W)`
containing the unobserved state `W`. -/
def column2WithStates : CatCol :=
  ⟨str "column_2", [str "X", str "Y", str "Z", str "W"],
    [str "X", str "Y", str "Y", str "Y", str "Z"]⟩

/-- The `column_2` raw column without a declared superset. -/
def column2Plain : CatCol :=
  ⟨str "column_2", [str "X", str "Y", str "Z"],
    [str "X", str "Y", str "Y", str "Y", str "Z"]⟩

/-! ## Graph model

Modelled from the spec: a directed graph is an ordered set of vertex
labels plus a set of ordered label pairs (edges); it exposes `parents`,
`descendants` (transitive closure via forward traversal, the vertex
excluded), `ancestors`, and the separation oracle `is_separator_set`. -/

/-- A directed graph: ordered vertex labels plus directed edges. -/
structure DiGraph where
  vertices : List Label
  edges : List (Label × Label)
  deriving DecidableEq, Repr

/-- The empty graph over an ordered vertex-label set. -/
def DiGraph.empty (vs : List Label) : DiGraph := ⟨vs, []⟩

/-- Add a directed edge. -/
def DiGraph.add_edge (g : DiGraph) (u v : Label) : DiGraph :=
  ⟨g.vertices, g.edges ++ [(u, v)]⟩

/-- The parents of a vertex: sources of its incoming edges. -/
def DiGraph.parents (g : DiGraph) (v : Label) : List Label :=
  (g.edges.filter (fun e => e.2 = v)).map (·.1)

/-- The children of a vertex: targets of its outgoing edges. -/
def DiGraph.children (g : DiGraph) (v : Label) : List Label :=
  (g.edges.filter (fun e => e.1 = v)).map (·.2)

/-- One expansion step of a traversal: add every neighbour of the current
frontier (deduplicated). -/
def expandStep (next : Label → List Label) (cur : List Label) : List Label :=
  (cur ++ cur.flatMap next).dedup

/-- Bounded transitive closure of a neighbour function: iterating the
expansion once per vertex reaches a fixpoint on any graph. -/
def closure (next : Label → List Label) : Nat → List Label → List Label
  | 0, cur => cur
  | n + 1, cur => closure next n (expandStep next cur)

/-- The descendants of a vertex: transitive closure via forward traversal,
the vertex itself excluded (on acyclic graphs). -/
def DiGraph.descendants (g : DiGraph) (v : Label) : List Label :=
  closure g.children g.vertices.length (g.children v)

/-- The ancestors of a vertex: transitive closure via backward traversal. -/
def DiGraph.ancestors (g : DiGraph) (v : Label) : List Label :=
  closure g.parents g.vertices.length (g.parents v)

/-- Acyclicity: no vertex reaches itself by a non-empty directed walk. -/
def DiGraph.isAcyclic (g : DiGraph) : Bool :=
  g.vertices.all (fun v => decide (v ∉ g.descendants v))

/-- Undirected adjacency in the moralized ancestral graph restricted to
`anc`: an edge in either direction, or a common child inside `anc`
(co-parents of a collider are connected). -/
def moralAdj (g : DiGraph) (anc : List Label) (u w : Label) : Bool :=
  decide (u ≠ w) && decide (u ∈ anc) && decide (w ∈ anc) &&
    (decide ((u, w) ∈ g.edges) || decide ((w, u) ∈ g.edges) ||
      anc.any (fun c => decide ((u, c) ∈ g.edges) && decide ((w, c) ∈ g.edges)))

/-- Modelled from the spec: `is_separator_set(X, Y, Z)` restricts to the
ancestral closure of `X ∪ Y ∪ Z`, moralizes (connects co-parents of every
collider and drops edge direction), and tests classical undirected
separation of `X` from `Y` by `Z` on the result. -/
def DiGraph.is_separator_set (g : DiGraph) (X Y Z : List Label) : Bool :=
  let anc := closure g.parents g.vertices.length (X ++ Y ++ Z)
  let free := anc.filter (fun v => decide (v ∉ Z))
  let nbr := fun u => free.filter (fun w => moralAdj g anc u w)
  let reach := closure nbr g.vertices.length (X.filter (fun v => decide (v ∈ free)))
  Y.all (fun y => decide (y ∉ reach))

/-- Modelled from the spec: the reference "asia" Bayesian network's graph.
The assets module is not under `src/`; the vertex-label list is asserted
by `test_asia`, and the edges are the standard asia (Lauritzen–
Spiegelhalter) structure referenced by the spec. -/
def asiaGraph : DiGraph :=
  ⟨[str "asia", str "bronc", str "dysp", str "either",
    str "lung", str "smoke", str "tub", str "xray"],
   [(str "asia", str "tub"), (str "bronc", str "dysp"),
    (str "either", str "dysp"), (str "either", str "xray"),
    (str "lung", str "either"), (str "smoke", str "bronc"),
    (str "smoke", str "lung"), (str "tub", str "either")]⟩

/-! ## Maximum-likelihood fitting and ancestral sampling for categorical
Bayesian networks

Modelled from the spec: maximum-likelihood estimation computes per-node
state counts per parent configuration directly from complete canonical
evidence; the CPD of a node holds one probability row per parent
configuration (parent-configuration blocks ordered by the sorted,
parents-ordered enumeration).  The static sampler processes vertices
ancestrally, drawing each vertex's value from the CPD row selected by its
already-sampled parent values; the seeded pseudo-random source is
modelled as an explicit stream of uniform draws in `[0, 1)`, one per
(row, vertex). -/

/-- The integer-coded cells of a named column. -/
def CatTable.colCodes (t : CatTable) (l : Label) : List Nat :=
  ((t.columns.find? (·.1 = l)).map (·.2.2)).getD []

/-- All parent configurations for the given per-parent cardinalities, in
the agreed enumeration order (first parent varying slowest). -/
def cartProd : List Nat → List (List Nat)
  | [] => [[]]
  | n :: ns => (List.range n).flatMap (fun i => (cartProd ns).map (fun c => i :: c))

/-- The maximum-likelihood CPD of one node: for every parent
configuration, the vector of state counts among the matching rows,
normalized by the number of matching rows. -/
def nodeCPT (t : CatTable) (g : DiGraph) (v : Label) : List (List ℚ) :=
  let pa := g.parents v
  let rows := t.valuesMatrix
  let childPos := idxOf v t.labels
  let paPos := pa.map (fun p => idxOf p t.labels)
  (cartProd (pa.map (fun p => (t.states p).length))).map (fun cfg =>
    let sel := rows.filter (fun r => (paPos.zip cfg).all (fun pc => r.getD pc.1 0 = pc.2))
    (List.range (t.states v).length).map (fun s =>
      ((sel.filter (fun r => r.getD childPos 0 = s)).length : ℚ) / sel.length))

/-- A categorical Bayesian network: a directed acyclic graph plus, per
node, its state space and its CPD table (one row per parent
configuration). -/
structure CatBN where
  graph : DiGraph
  cpds : List (Label × List Label × List (List ℚ))
  deriving DecidableEq, Repr

/-- Fit a categorical BN by maximum likelihood (`method="mle"`). -/
def CatBN.fit (t : CatTable) (g : DiGraph) : CatBN :=
  ⟨g, g.vertices.map (fun v => (v, t.states v, nodeCPT t g v))⟩

/-- The state space of one node of a fitted model. -/
def CatBN.statesOf (m : CatBN) (v : Label) : List Label :=
  ((m.cpds.find? (·.1 = v)).map (·.2.1)).getD []

/-- The CPD table of one node of a fitted model. -/
def CatBN.cptOf (m : CatBN) (v : Label) : List (List ℚ) :=
  ((m.cpds.find? (·.1 = v)).map (·.2.2)).getD []

/-- Draw one categorical value from a probability row, by inverse
transform on a uniform draw `u ∈ [0, 1)`: the first index whose running
probability mass exceeds `u`. -/
def drawCat : List ℚ → ℚ → Nat
  | [], _ => 0
  | p :: ps, u => if u < p then 0 else drawCat ps (u - p) + 1

/-- Ancestral sampling of one cell: draw the vertex's value from the CPD
row selected by its (recursively sampled) parent values.  On an acyclic
graph, fuel equal to the number of vertices suffices. -/
def sampleCell (m : CatBN) (u : Label → ℚ) : Nat → Label → Nat
  | 0, _ => 0
  | fuel + 1, v =>
    let pa := m.graph.parents v
    let paVals := pa.map (fun p => sampleCell m u fuel p)
    let cfgIdx := idxOf paVals (cartProd (pa.map (fun p => (m.statesOf p).length)))
    drawCat ((m.cptOf v).getD cfgIdx []) (u v)

/-- Draw `n` rows from a fitted categorical BN by ancestral sampling,
returning a canonical dataset in the same shape consumed by estimation.
`us i v` is the uniform draw spent on row `i`, vertex `v`. -/
def CatBN.sample (m : CatBN) (n : Nat) (us : Nat → Label → ℚ) : CatTable :=
  ⟨m.graph.vertices.map (fun v =>
    (v, m.statesOf v,
      (List.range n).map (fun i => sampleCell m (us i) m.graph.vertices.length v)))⟩

/-- The two-vertex graph `A → B` of the fit/sample test. -/
def copyPairGraph : DiGraph :=
  (DiGraph.empty [str "A", str "B"]).add_edge (str "A") (str "B")

/-- The dataset of the fit/sample test: `A` is an arbitrary column over
states `"0"`/`"1"`, and `B := A` is its deterministic copy. -/
def copyDataset (avals : List Label) : CatTable :=
  CatTable.from_pandas
    [⟨str "A", [str "0", str "1"], avals⟩,
     ⟨str "B", [str "0", str "1"], avals⟩]

/-- The integer codes of the copy dataset's shared column. -/
def copyCodes (avals : List Label) : List Nat :=
  avals.map (fun v => idxOf v [str "0", str "1"])

/-! ## Fitting on incomplete tables

Modelled from the spec: an incomplete table permits missing cell markers;
missing cells are excluded from direct sufficient-statistic counts and
are instead resolved by Expectation-Maximization — the E-step completes a
missing child cell probabilistically under the current model (rows whose
parent cells are all observed), the M-step re-normalizes the expected
counts, starting from the complete-case maximum-likelihood estimate. -/

/-- A raw labeled categorical column permitting missing cells (`none` is
the missing marker, pandas `NaN`). -/
structure CatIncCol where
  label : Label
  cats : List Label
  values : List (Option Label)
  deriving DecidableEq, Repr

/-- A canonical incomplete categorical table: per column, its label, its
canonical state space, and the integer-coded cells with missing cells
preserved as `none`. -/
structure CatIncTable where
  columns : List (Label × List Label × List (Option Nat))
  deriving DecidableEq, Repr

/-- Modelled from the spec: `CatIncTable.from_pandas` canonicalizes each
column's state space over its observed (non-missing) values and declared
categories, and re-codes the observed cells, keeping missing markers. -/
def CatIncTable.from_pandas (cols : List CatIncCol) : CatIncTable :=
  ⟨cols.map (fun c =>
    let states := canonicalStates (c.values.filterMap id) c.cats
    (c.label, states, c.values.map (fun v => v.map (fun x => idxOf x states))))⟩

/-- The number of rows of an incomplete table. -/
def CatIncTable.sampleSize (t : CatIncTable) : Nat :=
  ((t.columns.head?).map (fun c => c.2.2.length)).getD 0

/-- The column labels of an incomplete table. -/
def CatIncTable.labels (t : CatIncTable) : List Label :=
  t.columns.map (·.1)

/-- The canonical state space of a named column of an incomplete table. -/
def CatIncTable.states (t : CatIncTable) (l : Label) : List Label :=
  ((t.columns.find? (·.1 = l)).map (·.2.1)).getD []

/-- The row-major coded matrix of an incomplete table, missing cells as
`none`. -/
def CatIncTable.rowsInc (t : CatIncTable) : List (List (Option Nat)) :=
  (List.range t.sampleSize).map (fun i => t.columns.map (fun c => c.2.2.getD i none))

/-- Does a row's (observed) parent cells match a parent configuration? -/
def cfgMatches (r : List (Option Nat)) (paPos : List Nat) (cfg : List Nat) : Bool :=
  (paPos.zip cfg).all (fun pc => r.getD pc.1 none = some pc.2)

/-- Direct sufficient-statistic counts of one node on an incomplete table:
per parent configuration and child state, the number of rows whose
relevant cells (the node's and its parents') are all observed and match —
rows with a missing relevant cell are excluded. -/
def directCounts (t : CatIncTable) (g : DiGraph) (v : Label) : List (List Nat) :=
  let pa := g.parents v
  let childPos := idxOf v t.labels
  let paPos := pa.map (fun p => idxOf p t.labels)
  (cartProd (pa.map (fun p => (t.states p).length))).map (fun cfg =>
    (List.range (t.states v).length).map (fun s =>
      (t.rowsInc.filter (fun r =>
        cfgMatches r paPos cfg && r.getD childPos none = some s)).length))

/-- The complete-case maximum-likelihood CPD: direct counts normalized per
parent configuration. -/
def directCPT (t : CatIncTable) (g : DiGraph) (v : Label) : List (List ℚ) :=
  (directCounts t g v).map (fun row => row.map (fun k => (k : ℚ) / (row.sum : ℚ)))

/-- E-step expected counts of one node under the current parameters: an
observed child cell contributes a unit count to its cell; a missing child
cell (with observed parents) is completed probabilistically, contributing
its current conditional probability to every child state. -/
def expCounts (t : CatIncTable) (g : DiGraph) (v : Label)
    (cur : List (List ℚ)) : List (List ℚ) :=
  let pa := g.parents v
  let childPos := idxOf v t.labels
  let paPos := pa.map (fun p => idxOf p t.labels)
  (cartProd (pa.map (fun p => (t.states p).length))).enum.map (fun ci =>
    (List.range (t.states v).length).map (fun s =>
      t.rowsInc.foldr (fun r acc => acc +
        (if cfgMatches r paPos ci.2 then
          match r.getD childPos none with
          | some c => if c = s then 1 else 0
          | none => (cur.getD ci.1 []).getD s 0
        else 0)) 0))

/-- One EM pass over every node: E-step expected counts, M-step
re-normalization. -/
def emStepInc (t : CatIncTable) (g : DiGraph)
    (ps : List (Label × List Label × List (List ℚ))) :
    List (Label × List Label × List (List ℚ)) :=
  ps.map (fun e =>
    (e.1, e.2.1, (expCounts t g e.1 e.2.2).map (fun row => row.map (fun q => q / row.sum))))

/-- Iterate the EM pass a fixed number of rounds. -/
def emIterInc (t : CatIncTable) (g : DiGraph) :
    Nat → List (Label × List Label × List (List ℚ)) →
      List (Label × List Label × List (List ℚ))
  | 0, ps => ps
  | n + 1, ps => emIterInc t g n (emStepInc t g ps)

/-- Fit a categorical BN on an incomplete table: start from the
complete-case maximum-likelihood estimate and resolve missing cells by EM
(a fixed number of rounds) instead of erroring. -/
def CatBN.fitIncomplete (t : CatIncTable) (g : DiGraph) (iters : Nat) : CatBN :=
  ⟨g, emIterInc t g iters (g.vertices.map (fun v => (v, t.states v, directCPT t g v)))⟩

/-- The incomplete dataset of
`test_categorical_bayesian_network_fit_incomplete`: `A = [X,Y,X,Y,X]`,
`B = [X,Y,X,NaN,X]`. -/
def incTable : CatIncTable :=
  CatIncTable.from_pandas
    [⟨str "A", [str "X", str "Y"],
       [some (str "X"), some (str "Y"), some (str "X"), some (str "Y"), some (str "X")]⟩,
     ⟨str "B", [str "X", str "Y"],
       [some (str "X"), some (str "Y"), some (str "X"), none, some (str "X")]⟩]

/-! ## Interval evidence, EM, and Structural-EM for continuous-time models

Modelled from the spec: interval evidence holds one row per
`(label, state, start, end)` meaning the variable held that state on
`[start, end)`; per-label declared state spaces may be supplied.  EM
computes expected sufficient statistics (sojourn times and transition
counts per parent configuration) by probabilistic completion — degenerate
here because the modelled evidence intervals are fully observed, so the
expected statistics equal the observed statistics — then re-runs
maximum-likelihood estimation of the conditional intensity matrices; each
round records the model and the statistics snapshot, stopping early when
the log-likelihood no longer improves (the model is unchanged) or the
iteration budget is exhausted.  Stochastic initialization is driven by an
explicit linear-congruential stream seeded by the caller. -/

/-- One interval-evidence row: variable `event` held `state` on
`[start, stop)`. -/
structure EvRow where
  event : Label
  state : Label
  start : ℚ
  stop : ℚ
  deriving DecidableEq, Repr

/-- Canonical interval evidence: per-label declared state spaces
(canonicalized) plus the evidence rows. -/
structure CatTrjsEv where
  states : List (Label × List Label)
  rows : List EvRow
  deriving DecidableEq, Repr

/-- Modelled from the spec: interval-evidence construction canonicalizes
the per-label declared state spaces and flattens the trajectories' rows. -/
def CatTrjsEv.from_pandas (dfs : List (List EvRow))
    (withStates : List (Label × List Label)) : CatTrjsEv :=
  ⟨withStates.map (fun e => (e.1, sortDedup e.2)), dfs.flatMap id⟩

/-- The declared state space of one label of the evidence. -/
def CatTrjsEv.statesOf (ev : CatTrjsEv) (l : Label) : List Label :=
  ((ev.states.find? (·.1 = l)).map (·.2)).getD []

/-- The state the evidence asserts for a label at a time point (`none`
when unobserved there). -/
def stateAt (rows : List EvRow) (l : Label) (t : ℚ) : Option Label :=
  (rows.find? (fun r => r.event = l ∧ r.start ≤ t ∧ t < r.stop)).map (·.state)

/-- The parent configuration of a vertex at a time point. -/
def cfgAt (rows : List EvRow) (g : DiGraph) (v : Label) (t : ℚ) : List (Option Label) :=
  (g.parents v).map (fun p => stateAt rows p t)

/-- All interval boundary points of the evidence, sorted. -/
def timePoints (rows : List EvRow) : List ℚ :=
  sortDedup (rows.flatMap (fun r => [r.start, r.stop]))

/-- Consecutive pairs of a list. -/
def consecutivePairs (l : List ℚ) : List (ℚ × ℚ) := l.zip l.tail

/-- Add a quantity to the entry of an association list (inserting it when
absent). -/
def bump {κ : Type} [DecidableEq κ] (k : κ) (q : ℚ) : List (κ × ℚ) → List (κ × ℚ)
  | [] => [(k, q)]
  | e :: rest => if e.1 = k then (e.1, e.2 + q) :: rest else e :: bump k q rest

/-- Look a quantity up in an association list (`0` when absent). -/
def lookupQ {κ : Type} [DecidableEq κ] (k : κ) (al : List (κ × ℚ)) : ℚ :=
  ((al.find? (·.1 = k)).map (·.2)).getD 0

/-- Sojourn statistics of one vertex: for every evidence interval of the
vertex, its sub-intervals between consecutive global boundary points
contribute their length to the key (parent configuration at the
sub-interval's start, state held). -/
def sojournStats (rows : List EvRow) (g : DiGraph) (v : Label) :
    List ((List (Option Label) × Label) × ℚ) :=
  (rows.filter (fun r => r.event = v)).foldr (fun r acc =>
    ((consecutivePairs (timePoints rows)).filter
        (fun tt => r.start ≤ tt.1 ∧ tt.2 ≤ r.stop)).foldr
      (fun tt acc2 => bump (cfgAt rows g v tt.1, r.state) (tt.2 - tt.1) acc2) acc) []

/-- Transition statistics of one vertex: every pair of its evidence
intervals that abut with a state change contributes one count to the key
(parent configuration during the leaving interval, old state, new
state). -/
def transitionStats (rows : List EvRow) (g : DiGraph) (v : Label) :
    List ((List (Option Label) × Label × Label) × ℚ) :=
  (rows.filter (fun r => r.event = v)).foldr (fun r1 acc =>
    ((rows.filter (fun r => r.event = v)).filter
        (fun r2 => r1.stop = r2.start ∧ r1.state ≠ r2.state)).foldr
      (fun r2 acc2 => bump (cfgAt rows g v r1.start, r1.state, r2.state) 1 acc2) acc) []

/-- Expected sufficient statistics of the E-step: per vertex, its sojourn
and transition statistics.  With fully observed intervals the
probabilistic completion is degenerate, so these coincide with the
observed statistics and do not depend on the current parameters. -/
def expectedStatsEv (ev : CatTrjsEv) (g : DiGraph) :
    List (Label × List ((List (Option Label) × Label) × ℚ)
            × List ((List (Option Label) × Label × Label) × ℚ)) :=
  g.vertices.map (fun v => (v, sojournStats ev.rows g v, transitionStats ev.rows g v))

/-- All fully-observed parent configurations of a vertex. -/
def cfgEnum (ev : CatTrjsEv) (g : DiGraph) (v : Label) : List (List (Option Label)) :=
  (g.parents v).foldr
    (fun p acc => ((ev.statesOf p).map some).flatMap (fun s => acc.map (fun c => s :: c)))
    [[]]

instance : DecidableEq (List Label × List (List (Option Label) × List (List ℚ))) :=
  instDecidableEqProd

instance : DecidableEq (Label × List Label × List (List (Option Label) × List (List ℚ))) :=
  instDecidableEqProd

/-- A fitted continuous-time model: per vertex, its state space and one
intensity matrix per parent configuration (diagonal entries the negated
row sums of the off-diagonal rates). -/
structure CTModel where
  cims : List (Label × List Label × List (List (Option Label) × List (List ℚ)))
  deriving DecidableEq, Repr

/-- M-step: maximum-likelihood conditional intensity matrices from the
expected statistics — each off-diagonal rate is the expected transition
count over the expected sojourn time, each diagonal entry the negated sum
of the rest of its row. -/
def mStepEv (ev : CatTrjsEv) (g : DiGraph) : CTModel :=
  ⟨g.vertices.map (fun v =>
    let st := ev.statesOf v
    let soj := sojournStats ev.rows g v
    let tr := transitionStats ev.rows g v
    (v, st, (cfgEnum ev g v).map (fun cfg =>
      (cfg, st.map (fun s =>
        st.map (fun s' =>
          if s' = s then
            -((st.filter (· ≠ s)).map (fun s'' =>
                lookupQ (cfg, s, s'') tr / lookupQ (cfg, s) soj)).sum
          else lookupQ (cfg, s, s') tr / lookupQ (cfg, s) soj))))))⟩

/-- A linear congruential pseudo-random step (the explicit seeded source
threaded through stochastic initialization). -/
def lcg (s : Nat) : Nat := (1103515245 * s + 12345) % 2147483648

/-- Stochastic initialization of the EM loop from a seed: every vertex
gets, per parent configuration, a uniform-rate intensity matrix whose rate
is drawn from the seeded stream. -/
def initModelEv (ev : CatTrjsEv) (g : DiGraph) (seed : Nat) : CTModel :=
  ⟨g.vertices.map (fun v =>
    let st := ev.statesOf v
    let rate : ℚ := (lcg seed % 10 + 1 : Nat)
    (v, st, (cfgEnum ev g v).map (fun cfg =>
      (cfg, st.map (fun s =>
        st.map (fun s' =>
          if s' = s then -(((st.length : ℚ) - 1) * rate) else rate))))))⟩

/-- The EM loop: each round records the E-step statistics snapshot and the
M-step model, stopping early at a fixpoint (no log-likelihood improvement)
or when the iteration budget is exhausted. -/
def emLoopEv (ev : CatTrjsEv) (g : DiGraph) :
    Nat → CTModel → List CTModel × List (List (Label
      × List ((List (Option Label) × Label) × ℚ)
      × List ((List (Option Label) × Label × Label) × ℚ)))
  | 0, _ => ([], [])
  | n + 1, m =>
    let e := expectedStatsEv ev g
    let m' := mStepEv ev g
    if m' = m then ([m'], [e])
    else
      let rest := emLoopEv ev g n m'
      (m' :: rest.1, e :: rest.2)

/-- `em(evidence, graph, max_iter, seed)`: the ordered histories of models
and expectation snapshots. -/
def em (ev : CatTrjsEv) (g : DiGraph) (maxIter seed : Nat) :
    List CTModel × List (List (Label
      × List ((List (Option Label) × Label) × ℚ)
      × List ((List (Option Label) × Label × Label) × ℚ))) :=
  emLoopEv ev g maxIter (initModelEv ev g seed)

/-! ### Prior knowledge and Structural-EM -/

/-- Prior knowledge: vertex labels, forbidden edges, required edges, and
an ordered partition of labels into temporal tiers. -/
structure PK where
  labels : List Label
  forbidden : List (Label × Label)
  required : List (Label × Label)
  tiers : List (List Label)
  deriving DecidableEq, Repr

/-- The tier index of a label (`0` when tiers are not used or the label is
in the first tier). -/
def tierIdx (pk : PK) (v : Label) : Nat :=
  ((pk.tiers.findIdx? (fun t => v ∈ t)).getD 0)

/-- Does an edge respect the prior knowledge (not forbidden, temporal-tier
direction respected)? -/
def pkAllows (pk : PK) (e : Label × Label) : Bool :=
  decide (e ∉ pk.forbidden) && decide (tierIdx pk e.1 ≤ tierIdx pk e.2)

/-- Remove a directed edge. -/
def DiGraph.remove_edge (g : DiGraph) (e : Label × Label) : DiGraph :=
  ⟨g.vertices, g.edges.filter (· ≠ e)⟩

/-- All ordered vertex pairs of a graph. -/
def vertexPairs (g : DiGraph) : List (Label × Label) :=
  g.vertices.flatMap (fun u => g.vertices.map (fun w => (u, w)))

/-- Candidate single-edge mutations of the current graph that satisfy the
prior knowledge (not forbidden, required edges never removed, temporal
tiers respected) and preserve acyclicity: additions, removals, and
reversals. -/
def neighborsPK (pk : PK) (g : DiGraph) : List DiGraph :=
  (((vertexPairs g).filter (fun e =>
      decide (e.1 ≠ e.2) && decide (e ∉ g.edges) && pkAllows pk e)).map
      (fun e => g.add_edge e.1 e.2)
    ++ ((g.edges.filter (fun e => decide (e ∉ pk.required))).map
      (fun e => g.remove_edge e))
    ++ ((g.edges.filter (fun e =>
        decide (e ∉ pk.required) && pkAllows pk (e.2, e.1)
          && decide ((e.2, e.1) ∉ g.edges))).map
      (fun e => (g.remove_edge e).add_edge e.2 e.1))).filter DiGraph.isAcyclic

/-- One hill-climbing step: the best-scoring candidate is accepted only if
it strictly improves on the current score. -/
def hcStep (σ : DiGraph → ℚ) (pk : PK) (g : DiGraph) : Option DiGraph :=
  let best := (neighborsPK pk g).foldr (fun c acc =>
    match acc with
    | none => some c
    | some b => if σ b < σ c then some c else acc) none
  match best with
  | some b => if σ g < σ b then some b else none
  | none => none

/-- Hill climbing: move while a candidate strictly improves the score. -/
def hcClimb (σ : DiGraph → ℚ) (pk : PK) : Nat → DiGraph → DiGraph
  | 0, g => g
  | n + 1, g =>
    match hcStep σ pk g with
    | none => g
    | some g' => hcClimb σ pk n g'

/-- The outer Structural-EM loop: each iteration recomputes the expected
statistics under the current structure (E-step), runs a hill-climb pass
under the prior knowledge, fits the resulting structure (M-step), and
records the (graph, model) pair and the statistics snapshot; it stops when
the structure no longer changes or the budget is exhausted. -/
def semLoop (ev : CatTrjsEv) (σ : DiGraph → ℚ) (pk : PK) :
    Nat → DiGraph → List (DiGraph × CTModel) × List (List (Label
      × List ((List (Option Label) × Label) × ℚ)
      × List ((List (Option Label) × Label × Label) × ℚ)))
  | 0, _ => ([], [])
  | n + 1, g =>
    let e := expectedStatsEv ev g
    let g' := hcClimb σ pk (pk.labels.length * pk.labels.length) g
    let m' := mStepEv ev g'
    if g' = g then ([(g', m')], [e])
    else
      let rest := semLoop ev σ pk n g'
      ((g', m') :: rest.1, e :: rest.2)

/-- `sem(evidence, prior_knowledge, score, max_iter, seed)`: the ordered
histories of (structure, model) pairs and expectation snapshots, searched
from the initial empty graph. -/
def sem (ev : CatTrjsEv) (pk : PK) (σ : DiGraph → ℚ) (maxIter seed : Nat) :
    List (DiGraph × CTModel) × List (List (Label
      × List ((List (Option Label) × Label) × ℚ)
      × List ((List (Option Label) × Label × Label) × ℚ))) :=
  semLoop ev σ pk maxIter (DiGraph.empty pk.labels)

/-- The interval evidence of `test_parameter_learning_em`: `A` and `B`
each hold `"0"` on `[0,1)` and `"1"` on `[1,2)`. -/
def emEvidence : CatTrjsEv :=
  CatTrjsEv.from_pandas
    [[⟨str "A", str "0", 0, 1⟩, ⟨str "B", str "0", 0, 1⟩,
      ⟨str "A", str "1", 1, 2⟩, ⟨str "B", str "1", 1, 2⟩]]
    [(str "A", [str "0", str "1"]), (str "B", [str "0", str "1"])]

/-- The interval evidence of `test_structure_learning_sem`: `A` and `B`
each hold `"0"` on `[0,1)`. -/
def semEvidence : CatTrjsEv :=
  CatTrjsEv.from_pandas
    [[⟨str "A", str "0", 0, 1⟩, ⟨str "B", str "0", 0, 1⟩]]
    [(str "A", [str "0", str "1"]), (str "B", [str "0", str "1"])]

/-- The empty prior knowledge of the SEM test: labels `A`, `B`, no
forbidden edges, no required edges, no tiers. -/
def emptyPK : PK := ⟨[str "A", str "B"], [], [], []⟩

/-- A parameter-count penalty score (the BIC-like penalty term, here with
the floating-point log-likelihood part instantiated by the caller as part
of the score function). -/
def penaltyScore (g : DiGraph) : ℚ := -(g.edges.length : ℚ)

/-! ## Model persistence

Modelled from the spec: a model serializes to a self-describing structured
document containing the model name, an optional free-text description, the
graph as a vertex list plus an edge list, and per-vertex parameters — CPD
tables with their indexing convention (flattened with child state varying
fastest per parent-configuration block) and state-space labels, or CIM
matrices with parent-configuration keys.  Deserialization rebuilds the
graph from the two lists and re-chunks each flattened table by the node's
state-space size. -/

/-- Split a list into consecutive chunks of size `k` (fuel-bounded). -/
def chunkF {α : Type} (k : Nat) : Nat → List α → List (List α)
  | 0, _ => []
  | _ + 1, [] => []
  | n + 1, a :: l => (a :: l).take k :: chunkF k n ((a :: l).drop k)

/-- Split a list into consecutive chunks of size `k`. -/
def chunk {α : Type} (k : Nat) (l : List α) : List (List α) :=
  chunkF k l.length l

instance : DecidableEq (List (Label × List Label) × List ℚ) := instDecidableEqProd

instance : DecidableEq (List Label × List (Label × List Label) × List ℚ) :=
  instDecidableEqProd

instance : DecidableEq (Label × List Label × List (Label × List Label) × List ℚ) :=
  instDecidableEqProd

instance : DecidableEq (List (Label × List Label) × List (List Label × List ℚ)) :=
  instDecidableEqProd

instance : DecidableEq (List Label × List (Label × List Label) × List (List Label × List ℚ)) :=
  instDecidableEqProd

instance :
    DecidableEq (Label × List Label × List (Label × List Label) × List (List Label × List ℚ)) :=
  instDecidableEqProd

/-- The persistence view of a categorical CPD: the child's state labels,
each parent's state labels, and the probability table (one row per parent
configuration, child state varying fastest within a row). -/
structure PersistCatCPD where
  states : List Label
  parents : List (Label × List Label)
  table : List (List ℚ)
  deriving DecidableEq, Repr

/-- The persistence view of a categorical BN: name, optional description,
graph, and per-vertex CPDs. -/
structure PersistCatBN where
  name : Label
  description : Option Label
  graph : DiGraph
  cpds : List (Label × PersistCatCPD)
  deriving DecidableEq, Repr

/-- The persistence document of a categorical BN: name, optional
description, vertex list, edge list, and per-vertex parameters with the
probability table flattened (child state varying fastest). -/
structure CatBNDoc where
  name : Label
  description : Option Label
  vertices : List Label
  edges : List (Label × Label)
  params : List (Label × List Label × List (Label × List Label) × List ℚ)
  deriving DecidableEq, Repr

/-- Serialize a categorical BN to its persistence document. -/
def PersistCatBN.to_document (m : PersistCatBN) : CatBNDoc :=
  ⟨m.name, m.description, m.graph.vertices, m.graph.edges,
   m.cpds.map (fun e => (e.1, e.2.states, e.2.parents, e.2.table.flatten))⟩

/-- Deserialize a categorical BN from its persistence document, rebuilding
the graph from the vertex and edge lists and re-chunking each flattened
table by the node's state-space size. -/
def PersistCatBN.from_document (d : CatBNDoc) : PersistCatBN :=
  ⟨d.name, d.description, ⟨d.vertices, d.edges⟩,
   d.params.map (fun p => (p.1, ⟨p.2.1, p.2.2.1, chunk p.2.1.length p.2.2.2⟩))⟩

/-- The persistence view of a linear-Gaussian CPD: coefficient vector over
the continuous parents, intercept, covariance. -/
structure GaussCPD where
  coefficients : List ℚ
  intercept : ℚ
  covariance : ℚ
  deriving DecidableEq, Repr

/-- The persistence view of a Gaussian BN. -/
structure PersistGaussBN where
  name : Label
  description : Option Label
  graph : DiGraph
  cpds : List (Label × GaussCPD)
  deriving DecidableEq, Repr

/-- The persistence document of a Gaussian BN: the linear-Gaussian
parameters are already flat and are stored as they are. -/
structure GaussBNDoc where
  name : Label
  description : Option Label
  vertices : List Label
  edges : List (Label × Label)
  params : List (Label × GaussCPD)
  deriving DecidableEq, Repr

/-- Serialize a Gaussian BN to its persistence document. -/
def PersistGaussBN.to_document (m : PersistGaussBN) : GaussBNDoc :=
  ⟨m.name, m.description, m.graph.vertices, m.graph.edges, m.cpds⟩

/-- Deserialize a Gaussian BN from its persistence document. -/
def PersistGaussBN.from_document (d : GaussBNDoc) : PersistGaussBN :=
  ⟨d.name, d.description, ⟨d.vertices, d.edges⟩, d.params⟩

/-- The persistence view of a conditional intensity matrix: the node's
state labels, each parent's state labels, and one square rate matrix per
parent-configuration key. -/
structure PersistCIM where
  states : List Label
  parents : List (Label × List Label)
  matrices : List (List Label × List (List ℚ))
  deriving DecidableEq, Repr

/-- The persistence view of a categorical CTBN. -/
structure PersistCatCTBN where
  name : Label
  description : Option Label
  graph : DiGraph
  cims : List (Label × PersistCIM)
  deriving DecidableEq, Repr

/-- The persistence document of a categorical CTBN: per vertex, the CIM
matrices flattened row-major under their parent-configuration keys. -/
structure CatCTBNDoc where
  name : Label
  description : Option Label
  vertices : List Label
  edges : List (Label × Label)
  params : List (Label × List Label × List (Label × List Label)
    × List (List Label × List ℚ))
  deriving DecidableEq, Repr

/-- Serialize a categorical CTBN to its persistence document. -/
def PersistCatCTBN.to_document (m : PersistCatCTBN) : CatCTBNDoc :=
  ⟨m.name, m.description, m.graph.vertices, m.graph.edges,
   m.cims.map (fun e => (e.1, e.2.states, e.2.parents,
     e.2.matrices.map (fun km => (km.1, km.2.flatten))))⟩

/-- Deserialize a categorical CTBN from its persistence document,
re-chunking each flattened matrix by the node's state-space size. -/
def PersistCatCTBN.from_document (d : CatCTBNDoc) : PersistCatCTBN :=
  ⟨d.name, d.description, ⟨d.vertices, d.edges⟩,
   d.params.map (fun p => (p.1, ⟨p.2.1, p.2.2.1,
     p.2.2.2.map (fun km => (km.1, chunk p.2.1.length km.2))⟩))⟩

/-! ## Lemmas about the canonical state-space ordering -/

theorem mem_insertDedup {α : Type} [LinearOrder α] {x a : α} {l : List α} :
    a ∈ insertDedup x l ↔ a = x ∨ a ∈ l := by
  induction l with
  | nil => simp [insertDedup]
  | cons y ys ih =>
    by_cases hxy : x = y
    · subst hxy; simp [insertDedup]
    · by_cases hlt : x < y
      · simp [insertDedup, hxy, hlt]
      · simp only [insertDedup, if_neg hxy, if_neg hlt, List.mem_cons, ih]; tauto

theorem pairwise_insertDedup {α : Type} [LinearOrder α] {x : α} {l : List α}
    (h : l.Pairwise (· < ·)) : (insertDedup x l).Pairwise (· < ·) := by
  induction l with
  | nil => simp [insertDedup]
  | cons y ys ih =>
    rcases List.pairwise_cons.1 h with ⟨hy, hys⟩
    by_cases hxy : x = y
    · subst hxy; simpa [insertDedup] using h
    · by_cases hlt : x < y
      · simp only [insertDedup, if_neg hxy, if_pos hlt]
        refine List.pairwise_cons.2 ⟨?_, h⟩
        intro b hb
        rcases List.mem_cons.1 hb with rfl | hb'
        · exact hlt
        · exact lt_trans hlt (hy b hb')
      · have hyx : y < x := lt_of_le_of_ne (not_lt.1 hlt) (Ne.symm hxy)
        simp only [insertDedup, if_neg hxy, if_neg hlt]
        refine List.pairwise_cons.2 ⟨?_, ih hys⟩
        intro b hb
        rcases mem_insertDedup.1 hb with rfl | hb'
        · exact hyx
        · exact hy b hb'

theorem mem_sortDedup {α : Type} [LinearOrder α] {a : α} {l : List α} :
    a ∈ sortDedup l ↔ a ∈ l := by
  induction l with
  | nil => simp [sortDedup]
  | cons x xs ih =>
    show a ∈ insertDedup x (sortDedup xs) ↔ _
    rw [mem_insertDedup, ih, List.mem_cons]

theorem pairwise_sortDedup {α : Type} [LinearOrder α] (l : List α) :
    (sortDedup l).Pairwise (· < ·) := by
  induction l with
  | nil => simp [sortDedup]
  | cons x xs ih => exact pairwise_insertDedup ih

theorem sorted_eq_of_mem_iff {α : Type} [LinearOrder α] :
    ∀ {l₁ l₂ : List α}, l₁.Pairwise (· < ·) → l₂.Pairwise (· < ·) →
      (∀ a, a ∈ l₁ ↔ a ∈ l₂) → l₁ = l₂
  | [], [], _, _, _ => rfl
  | [], y :: ys, _, _, h => absurd ((h y).2 (List.mem_cons_self y ys)) (List.not_mem_nil y)
  | x :: xs, [], _, _, h => absurd ((h x).1 (List.mem_cons_self x xs)) (List.not_mem_nil x)
  | x :: xs, y :: ys, h₁, h₂, h => by
    rcases List.pairwise_cons.1 h₁ with ⟨hx, hxs⟩
    rcases List.pairwise_cons.1 h₂ with ⟨hy, hys⟩
    have hxy : x = y := by
      by_contra hne
      have hx2 : x ∈ ys := (List.mem_cons.1 ((h x).1 (List.mem_cons_self x xs))).resolve_left hne
      have hy2 : y ∈ xs := (List.mem_cons.1 ((h y).2 (List.mem_cons_self y ys))).resolve_left
        (fun e => hne e.symm)
      exact absurd (lt_trans (hy x hx2) (hx y hy2)) (lt_irrefl y)
    subst hxy
    have htl : ∀ a, a ∈ xs ↔ a ∈ ys := by
      intro a
      constructor
      · intro ha
        have hax : a ≠ x := fun e => absurd (hx a ha) (e ▸ lt_irrefl x)
        exact (List.mem_cons.1 ((h a).1 (List.mem_cons_of_mem x ha))).resolve_left hax
      · intro ha
        have hax : a ≠ x := fun e => absurd (hy a ha) (e ▸ lt_irrefl x)
        exact (List.mem_cons.1 ((h a).2 (List.mem_cons_of_mem x ha))).resolve_left hax
    rw [sorted_eq_of_mem_iff hxs hys htl]

theorem sortDedup_eq_self {α : Type} [LinearOrder α] {l : List α}
    (h : l.Pairwise (· < ·)) : sortDedup l = l :=
  sorted_eq_of_mem_iff (pairwise_sortDedup l) h (fun _ => mem_sortDedup)

theorem idxOf_lt_idxOf_sorted {α : Type} [inst : DecidableEq α] [LinearOrder α] :
    ∀ {l : List α}, l.Pairwise (· < ·) → ∀ {a b : α}, a ∈ l → b ∈ l → a < b →
      @idxOf α inst a l < @idxOf α inst b l
  | [], _, _, _, ha, _, _ => absurd ha (List.not_mem_nil _)
  | x :: xs, hl, a, b, ha, hb, hab => by
    rcases List.pairwise_cons.1 hl with ⟨hx, hxs⟩
    by_cases hax : x = a
    · subst hax
      have hbx : x ≠ b := fun e => absurd hab (e ▸ lt_irrefl x)
      simp only [idxOf, if_pos rfl, if_neg hbx]
      exact Nat.succ_pos _
    · have ha' : a ∈ xs := (List.mem_cons.1 ha).resolve_left (fun e => hax e.symm)
      have hbx : x ≠ b := fun e => absurd (lt_trans (e ▸ hx a ha') hab) (lt_irrefl b)
      have hb' : b ∈ xs := (List.mem_cons.1 hb).resolve_left (fun e => hbx e.symm)
      simp only [idxOf, if_neg hax, if_neg hbx]
      exact Nat.succ_lt_succ (idxOf_lt_idxOf_sorted hxs ha' hb' hab)

theorem getD_idxOf {α : Type} [DecidableEq α] {a : α} :
    ∀ {l : List α}, a ∈ l → ∀ d : α, l.getD (idxOf a l) d = a
  | [], ha, _ => absurd ha (List.not_mem_nil _)
  | x :: xs, ha, d => by
    by_cases hax : x = a
    · simp [idxOf, hax]
    · have ha' : a ∈ xs := (List.mem_cons.1 ha).resolve_left (fun e => hax e.symm)
      simp only [idxOf, if_neg hax]
      exact getD_idxOf ha' d

/-- Decoding the codes of a column through its canonical state space
recovers the observed values, provided each observed value belongs to the
canonical state space. -/
theorem decode_codes (states : List Label) (values : List Label)
    (h : ∀ v ∈ values, v ∈ states) :
    (values.map (fun v => idxOf v states)).map (fun i => states.getD i []) = values := by
  rw [List.map_map]
  show List.map (fun v => states.getD (idxOf v states) []) values = values
  exact (List.map_congr_left fun v hv => getD_idxOf (h v hv) []).trans (List.map_id values)

/-- Every observed value of a column belongs to its canonical state space. -/
theorem mem_states_of_mem_values {c : CatCol} {v : Label} (h : v ∈ c.values) :
    v ∈ c.states :=
  mem_sortDedup.2 (List.mem_append.2 (Or.inl h))

/-- Every declared category of a column belongs to its canonical state
space. -/
theorem mem_states_of_mem_cats {c : CatCol} {v : Label} (h : v ∈ c.cats) :
    v ∈ c.states :=
  mem_sortDedup.2 (List.mem_append.2 (Or.inr h))

/-- When every observed value is among the declared categories, the
canonical state space is the sorted deduplication of the declared
categories. -/
theorem states_eq_sortDedup_cats (c : CatCol) (hv : ∀ v ∈ c.values, v ∈ c.cats) :
    c.states = sortDedup c.cats := by
  refine sorted_eq_of_mem_iff (pairwise_sortDedup _) (pairwise_sortDedup _) (fun a => ?_)
  rw [CatCol.states, canonicalStates, mem_sortDedup, mem_sortDedup, List.mem_append]
  exact ⟨fun h => h.elim (fun h1 => hv a h1) id, Or.inr⟩

/-- Round-tripping one raw column through canonicalization reproduces its
label and values, and canonicalizes its declared category order. -/
theorem col_roundtrip (c : CatCol) (hv : ∀ v ∈ c.values, v ∈ c.cats) :
    (⟨c.label, c.states, c.codes.map (fun i => c.states.getD i [])⟩ : CatCol)
      = ⟨c.label, sortDedup c.cats, c.values⟩ := by
  have h2 : c.codes.map (fun i => c.states.getD i []) = c.values :=
    decode_codes c.states c.values (fun v hvv => mem_states_of_mem_values hvv)
  rw [h2, states_eq_sortDedup_cats c hv]

/-- Observed values of any trajectory in a collection belong to the
collection's union state space for that column. -/
theorem mem_unionStates {rs : List CatTrjRaw} {r : CatTrjRaw} (hr : r ∈ rs) {k : Nat}
    {v : Label} (hvv : v ∈ (colAt r k).values) : v ∈ unionStates rs k := by
  rw [unionStates, mem_sortDedup]
  induction rs with
  | nil => cases hr
  | cons r0 rest ih =>
    show v ∈ (colAt r0 k).values ++ (colAt r0 k).cats ++ _
    rcases List.mem_cons.1 hr with rfl | hr'
    · simp only [List.mem_append]
      exact Or.inl (Or.inl hvv)
    · simp only [List.mem_append]
      exact Or.inr (ih hr')

/-- The general trajectory-collection round trip: values, labels and times
are reproduced exactly; category lists come back as the per-column union
state space of the whole collection. -/
theorem trjs_roundtrip (rs : List CatTrjRaw) :
    (CatTrjs.from_pandas rs).to_pandas = rs.map (fun r =>
      ⟨r.times, (List.range ((rs.headD ⟨[], []⟩).cols.length)).map
        (fun k => ⟨(colAt r k).label, unionStates rs k, (colAt r k).values⟩)⟩) := by
  unfold CatTrjs.from_pandas CatTrjs.to_pandas
  rw [List.map_map]
  refine List.map_congr_left (fun r hr => ?_)
  show CatTrj.to_pandas _ = _
  unfold CatTrj.to_pandas CatTable.to_pandas
  refine congrArg (CatTrjRaw.mk r.times) ?_
  show List.map _ (List.map _ _) = _
  rw [List.map_map]
  refine List.map_congr_left (fun k _ => ?_)
  show (⟨(colAt r k).label, unionStates rs k,
      ((colAt r k).values.map (fun v => idxOf v (unionStates rs k))).map
        (fun i => (unionStates rs k).getD i [])⟩ : CatCol) = _
  rw [decode_codes _ _ (fun v hvv => mem_unionStates hr hvv)]

/-! ## Lemmas for maximum-likelihood fitting of the copy dataset -/

theorem canonicalStates_eq_of_sub (avals sts : List Label)
    (hs : sts.Pairwise (· < ·)) (hv : ∀ v ∈ avals, v ∈ sts) :
    canonicalStates avals sts = sts :=
  sorted_eq_of_mem_iff (pairwise_sortDedup _) hs (fun a => by
    rw [canonicalStates, mem_sortDedup, List.mem_append]
    exact ⟨fun h => h.elim (hv a) id, Or.inr⟩)

theorem map_getD_range (cs : List Nat) :
    (List.range cs.length).map (fun i => cs.getD i 0) = cs := by
  induction cs with
  | nil => rfl
  | cons c cs ih =>
    rw [List.length_cons, List.range_succ_eq_map, List.map_cons, List.map_map]
    show c :: (List.range cs.length).map (fun i => cs.getD i 0) = c :: cs
    rw [ih]

theorem copy_columns (avals : List Label)
    (hv : ∀ v ∈ avals, v = str "0" ∨ v = str "1") :
    (copyDataset avals).columns
      = [(str "A", [str "0", str "1"], copyCodes avals),
         (str "B", [str "0", str "1"], copyCodes avals)] := by
  have hst : canonicalStates avals [str "0", str "1"] = [str "0", str "1"] :=
    canonicalStates_eq_of_sub _ _ (by decide)
      (fun v hvv => by rcases hv v hvv with rfl | rfl <;> decide)
  simp [copyDataset, CatTable.from_pandas, CatCol.codes, CatCol.states, hst, copyCodes]

theorem copy_valuesMatrix (avals : List Label)
    (hv : ∀ v ∈ avals, v = str "0" ∨ v = str "1") :
    (copyDataset avals).valuesMatrix = (copyCodes avals).map (fun c => [c, c]) := by
  rw [CatTable.valuesMatrix, CatTable.sampleSize, copy_columns avals hv]
  show (List.range (copyCodes avals).length).map
      (fun i => [(copyCodes avals).getD i 0, (copyCodes avals).getD i 0]) = _
  rw [show (fun i => [(copyCodes avals).getD i 0, (copyCodes avals).getD i 0])
      = (fun c => [c, c]) ∘ (fun i => (copyCodes avals).getD i 0) from rfl]
  rw [← List.map_map, map_getD_range]

theorem filter_len_pos {cs : List Nat} {a : Nat} (h : a ∈ cs) :
    0 < (cs.filter (fun c => decide (c = a))).length := by
  rw [← List.countP_eq_length_filter]
  exact List.countP_pos_iff.2 ⟨a, h, by simp⟩

theorem cpt_dup_eval (cs : List Nat) (h0 : 0 ∈ cs) (h1 : 1 ∈ cs) :
    List.map (fun cfg =>
      List.map (fun s =>
        ((List.filter (fun r => decide (r.getD 1 0 = s))
          (List.filter (fun r => ([0].zip cfg).all fun pc => decide (r.getD pc.1 0 = pc.2))
            (cs.map (fun c => [c, c])))).length : ℚ) /
        ((List.filter (fun r => ([0].zip cfg).all fun pc => decide (r.getD pc.1 0 = pc.2))
            (cs.map (fun c => [c, c]))).length))
        (List.range 2))
      [[0], [1]] = [[1, 0], [0, 1]] := by
  have e4 : ∀ (s a : Nat),
      List.filter (fun r => decide (r.getD 1 0 = s)
            && (([0].zip [a]).all fun pc => decide (r.getD pc.1 0 = pc.2)))
          (List.map (fun c => [c, c]) cs)
        = List.map (fun c => [c, c]) (cs.filter (fun c => decide (c = s) && decide (c = a))) := by
    intro s a
    rw [List.filter_map]
    congr 1
    apply List.filter_congr
    intro c _
    simp
  have e2 : ∀ (a : Nat),
      List.filter (fun r => ([0].zip [a]).all fun pc => decide (r.getD pc.1 0 = pc.2))
          (cs.map (fun c => [c, c]))
        = (cs.filter (fun c => decide (c = a))).map (fun c => [c, c]) := by
    intro a
    rw [List.filter_map]
    congr 1
    apply List.filter_congr
    intro c _
    simp
  have hr2 : List.range 2 = [0, 1] := rfl
  simp only [List.map_cons, List.map_nil, hr2, List.filter_filter, e4, e2, List.length_map]
  have hs0 : (fun c => decide (c = 0) && decide (c = 0)) = (fun c : Nat => decide (c = 0)) :=
    funext fun c => Bool.and_self _
  have hs1 : (fun c => decide (c = 1) && decide (c = 1)) = (fun c : Nat => decide (c = 1)) :=
    funext fun c => Bool.and_self _
  have hzero : ∀ s t : Nat, s ≠ t →
      (cs.filter (fun c => decide (c = s) && decide (c = t))) = [] := by
    intro s t hst
    apply List.filter_eq_nil_iff.2
    intro c _
    simp only [Bool.and_eq_true, decide_eq_true_eq, not_and]
    exact fun h1 h2 => hst (h1 ▸ h2)
  have hk0 : (((cs.filter (fun c => decide (c = 0))).length : ℚ)) ≠ 0 :=
    Nat.cast_ne_zero.2 (filter_len_pos h0).ne'
  have hk1 : (((cs.filter (fun c => decide (c = 1))).length : ℚ)) ≠ 0 :=
    Nat.cast_ne_zero.2 (filter_len_pos h1).ne'
  rw [hs0, hs1, hzero 1 0 (by omega), hzero 0 1 (by omega)]
  simp [div_self hk0, div_self hk1]

theorem copyCodes_mem (avals : List Label)
    (hv : ∀ v ∈ avals, v = str "0" ∨ v = str "1") :
    ∀ c ∈ copyCodes avals, c = 0 ∨ c = 1 := by
  intro c hc
  rcases List.mem_map.1 hc with ⟨v, hvm, rfl⟩
  rcases hv v hvm with rfl | rfl
  · exact Or.inl (by decide)
  · exact Or.inr (by decide)

theorem zero_mem_copyCodes {avals : List Label} (h : str "0" ∈ avals) :
    0 ∈ copyCodes avals := by
  rw [copyCodes, List.mem_map]
  exact ⟨str "0", h, by decide⟩

theorem one_mem_copyCodes {avals : List Label} (h : str "1" ∈ avals) :
    1 ∈ copyCodes avals := by
  rw [copyCodes, List.mem_map]
  exact ⟨str "1", h, by decide⟩

theorem length_filter_01 (cs : List Nat) (h : ∀ c ∈ cs, c = 0 ∨ c = 1) :
    (cs.filter (fun c => decide (c = 0))).length
      + (cs.filter (fun c => decide (c = 1))).length = cs.length := by
  induction cs with
  | nil => rfl
  | cons c cs ih =>
    have ih' := ih (fun x hx => h x (List.mem_cons_of_mem _ hx))
    rcases h c (List.mem_cons_self _ _) with rfl | rfl
    · simp only [List.filter_cons, List.length_cons]
      norm_num
      omega
    · simp only [List.filter_cons, List.length_cons]
      norm_num
      omega

theorem cpt_B_eval (avals : List Label)
    (hv : ∀ v ∈ avals, v = str "0" ∨ v = str "1")
    (h0 : str "0" ∈ avals) (h1 : str "1" ∈ avals) :
    nodeCPT (copyDataset avals) copyPairGraph (str "B") = [[1, 0], [0, 1]] := by
  have hcols := copy_columns avals hv
  have hrows := copy_valuesMatrix avals hv
  have hpa : copyPairGraph.parents (str "B") = [str "A"] := by decide
  have hstA : (copyDataset avals).states (str "A") = [str "0", str "1"] := by
    rw [CatTable.states, hcols]; rfl
  have hstB : (copyDataset avals).states (str "B") = [str "0", str "1"] := by
    rw [CatTable.states, hcols]; rfl
  have hlabels : (copyDataset avals).labels = [str "A", str "B"] := by
    rw [CatTable.labels, hcols]; rfl
  have hiA : idxOf (str "A") [str "A", str "B"] = 0 := by decide
  have hiB : idxOf (str "B") [str "A", str "B"] = 1 := by decide
  rw [nodeCPT, hpa, hrows, hlabels]
  simp only [List.map_cons, List.map_nil, hstA, hstB, hiA, hiB]
  show List.map _ (cartProd [2]) = _
  have hcp : cartProd [2] = [[0], [1]] := rfl
  rw [hcp]
  show List.map _ [[0], [1]] = _
  exact cpt_dup_eval (copyCodes avals) (zero_mem_copyCodes h0) (one_mem_copyCodes h1)

theorem cpt_A_eval (avals : List Label)
    (hv : ∀ v ∈ avals, v = str "0" ∨ v = str "1") :
    nodeCPT (copyDataset avals) copyPairGraph (str "A")
      = [[(((copyCodes avals).filter (fun c => decide (c = 0))).length : ℚ)
            / ((copyCodes avals).length : ℚ),
          (((copyCodes avals).filter (fun c => decide (c = 1))).length : ℚ)
            / ((copyCodes avals).length : ℚ)]] := by
  have hcols := copy_columns avals hv
  have hrows := copy_valuesMatrix avals hv
  have hpa : copyPairGraph.parents (str "A") = [] := by decide
  have hstA : (copyDataset avals).states (str "A") = [str "0", str "1"] := by
    rw [CatTable.states, hcols]; rfl
  have hlabels : (copyDataset avals).labels = [str "A", str "B"] := by
    rw [CatTable.labels, hcols]; rfl
  have hiA : idxOf (str "A") [str "A", str "B"] = 0 := by decide
  rw [nodeCPT, hpa, hrows, hlabels]
  simp only [List.map_cons, List.map_nil, hstA, hiA]
  show List.map _ (cartProd []) = _
  have hcp : cartProd [] = [([] : List Nat)] := rfl
  rw [hcp]
  have etriv : List.filter
      (fun r => (([] : List Nat).zip ([] : List Nat)).all fun pc => decide (r.getD pc.1 0 = pc.2))
      ((copyCodes avals).map (fun c => [c, c]))
      = (copyCodes avals).map (fun c => [c, c]) := by
    apply List.filter_eq_self.2
    intro r _
    rfl
  have e5 : ∀ (s : Nat),
      List.filter (fun r => decide (r.getD 0 0 = s)) (List.map (fun c => [c, c]) (copyCodes avals))
        = List.map (fun c => [c, c]) ((copyCodes avals).filter (fun c => decide (c = s))) := by
    intro s
    rw [List.filter_map]
    congr 1
  have hlen2 : [str "0", str "1"].length = 2 := rfl
  have hr2 : List.range 2 = [0, 1] := rfl
  simp only [List.map_cons, List.map_nil, etriv, hlen2, hr2, e5, List.length_map]

theorem drawCat_lt : ∀ (p : List ℚ) (u : ℚ), 0 ≤ u → u < p.sum → drawCat p u < p.length
  | [], u, h0, h1 => by
    rw [List.sum_nil] at h1
    exact absurd (lt_of_le_of_lt h0 h1) (lt_irrefl 0)
  | q :: ps, u, h0, h1 => by
    by_cases hq : u < q
    · simp [drawCat, hq]
    · simp only [drawCat, if_neg hq, List.length_cons]
      have hge : q ≤ u := not_lt.1 hq
      rw [List.sum_cons] at h1
      exact Nat.succ_lt_succ (drawCat_lt ps (u - q) (by linarith) (by linarith))

theorem drawCat_unit0 {u : ℚ} (h1 : u < 1) : drawCat [1, 0] u = 0 := by
  simp [drawCat, h1]

theorem drawCat_unit1 {u : ℚ} (h0 : 0 ≤ u) (h1 : u < 1) : drawCat [0, 1] u = 1 := by
  simp [drawCat, show ¬ u < 0 from not_lt.2 h0, sub_zero, h1]

theorem copy_rowA_sum (avals : List Label)
    (hv : ∀ v ∈ avals, v = str "0" ∨ v = str "1") (h0 : str "0" ∈ avals) :
    ((((copyCodes avals).filter (fun c => decide (c = 0))).length : ℚ)
        / ((copyCodes avals).length : ℚ))
      + ((((copyCodes avals).filter (fun c => decide (c = 1))).length : ℚ)
        / ((copyCodes avals).length : ℚ)) = 1 := by
  have hne : copyCodes avals ≠ [] := List.ne_nil_of_mem (zero_mem_copyCodes h0)
  have hn : ((copyCodes avals).length : ℚ) ≠ 0 :=
    Nat.cast_ne_zero.2 (List.length_pos.2 hne).ne'
  rw [div_add_div_same, ← Nat.cast_add, length_filter_01 _ (copyCodes_mem avals hv),
    div_self hn]

theorem sampleA_eval (avals : List Label)
    (hv : ∀ v ∈ avals, v = str "0" ∨ v = str "1") (u : Label → ℚ) (fuel : Nat) :
    sampleCell (CatBN.fit (copyDataset avals) copyPairGraph) u (fuel + 1) (str "A")
      = drawCat
          [(((copyCodes avals).filter (fun c => decide (c = 0))).length : ℚ)
              / ((copyCodes avals).length : ℚ),
           (((copyCodes avals).filter (fun c => decide (c = 1))).length : ℚ)
              / ((copyCodes avals).length : ℚ)]
          (u (str "A")) := by
  have hcptA : (CatBN.fit (copyDataset avals) copyPairGraph).cptOf (str "A")
      = nodeCPT (copyDataset avals) copyPairGraph (str "A") := rfl
  show drawCat (((CatBN.fit (copyDataset avals) copyPairGraph).cptOf (str "A")).getD 0 [])
      (u (str "A")) = _
  rw [hcptA, cpt_A_eval avals hv]
  rfl

theorem sampleB_eq_sampleA (avals : List Label)
    (hv : ∀ v ∈ avals, v = str "0" ∨ v = str "1")
    (h0 : str "0" ∈ avals) (h1 : str "1" ∈ avals)
    (u : Label → ℚ) (hu : ∀ v, 0 ≤ u v ∧ u v < 1) :
    sampleCell (CatBN.fit (copyDataset avals) copyPairGraph) u 2 (str "B")
      = sampleCell (CatBN.fit (copyDataset avals) copyPairGraph) u 2 (str "A") := by
  have hcols := copy_columns avals hv
  have hstA : (copyDataset avals).states (str "A") = [str "0", str "1"] := by
    rw [CatTable.states, hcols]; rfl
  have hstOfA : (CatBN.fit (copyDataset avals) copyPairGraph).statesOf (str "A")
      = [str "0", str "1"] := by
    show (copyDataset avals).states (str "A") = _
    exact hstA
  have hcptB : (CatBN.fit (copyDataset avals) copyPairGraph).cptOf (str "B")
      = nodeCPT (copyDataset avals) copyPairGraph (str "B") := rfl
  have hA1 := sampleA_eval avals hv u 0
  have hA2 := sampleA_eval avals hv u 1
  have hsum : List.sum
      [(((copyCodes avals).filter (fun c => decide (c = 0))).length : ℚ)
          / ((copyCodes avals).length : ℚ),
       (((copyCodes avals).filter (fun c => decide (c = 1))).length : ℚ)
          / ((copyCodes avals).length : ℚ)] = 1 := by
    rw [List.sum_cons, List.sum_cons, List.sum_nil, add_zero]
    exact copy_rowA_sum avals hv h0
  have haa : sampleCell (CatBN.fit (copyDataset avals) copyPairGraph) u 1 (str "A") < 2 := by
    rw [hA1]
    have := drawCat_lt _ (u (str "A")) (hu (str "A")).1 (by rw [hsum]; exact (hu (str "A")).2)
    simpa using this
  show drawCat (((CatBN.fit (copyDataset avals) copyPairGraph).cptOf (str "B")).getD
      (idxOf [sampleCell (CatBN.fit (copyDataset avals) copyPairGraph) u 1 (str "A")]
        (cartProd [((CatBN.fit (copyDataset avals) copyPairGraph).statesOf (str "A")).length]))
      []) (u (str "B")) = _
  rw [hstOfA, hcptB, cpt_B_eval avals hv h0 h1, hA2, ← hA1]
  have haa2 : sampleCell (CatBN.fit (copyDataset avals) copyPairGraph) u 1 (str "A") = 0
      ∨ sampleCell (CatBN.fit (copyDataset avals) copyPairGraph) u 1 (str "A") = 1 := by omega
  rcases haa2 with he | he <;> rw [he]
  · have hidx : idxOf [0] (cartProd [([str "0", str "1"] : List Label).length]) = 0 := by decide
    rw [hidx]
    exact drawCat_unit0 (hu (str "B")).2
  · have hidx : idxOf [1] (cartProd [([str "0", str "1"] : List Label).length]) = 1 := by decide
    rw [hidx]
    exact drawCat_unit1 (hu (str "B")).1 (hu (str "B")).2

/-! ## Lemmas for the incomplete-table EM fit -/

/-- On the incomplete test table, the complete-case maximum-likelihood
start of EM equals the expected parameters: `P(A) = (3/5, 2/5)` from all
five rows, `P(B|A)` the identity from the four rows with `B` observed. -/
theorem incTable_init :
    copyPairGraph.vertices.map
        (fun v => (v, incTable.states v, directCPT incTable copyPairGraph v))
      = [(str "A", [str "X", str "Y"], [[3/5, 2/5]]),
         (str "B", [str "X", str "Y"], [[1, 0], [0, 1]])] := by
  have hA : directCounts incTable copyPairGraph (str "A") = [[3, 2]] := by decide
  have hB : directCounts incTable copyPairGraph (str "B") = [[3, 0], [0, 1]] := by decide
  have hsA : incTable.states (str "A") = [str "X", str "Y"] := by decide
  have hsB : incTable.states (str "B") = [str "X", str "Y"] := by decide
  show [(str "A", incTable.states (str "A"), directCPT incTable copyPairGraph (str "A")),
        (str "B", incTable.states (str "B"), directCPT incTable copyPairGraph (str "B"))] = _
  rw [hsA, hsB, directCPT, directCPT, hA, hB]
  norm_num

/-- The complete-case parameters are a fixed point of the EM pass on the
incomplete test table: the E-step completes the one missing `B` cell with
probability one on state `Y` (its current conditional given `A = Y`), and
the M-step re-normalization returns the same parameters. -/
theorem incTable_em_fixed_point :
    emStepInc incTable copyPairGraph
      [(str "A", [str "X", str "Y"], [[3/5, 2/5]]),
       (str "B", [str "X", str "Y"], [[1, 0], [0, 1]])]
      = [(str "A", [str "X", str "Y"], [[3/5, 2/5]]),
         (str "B", [str "X", str "Y"], [[1, 0], [0, 1]])] := by
  have hrows : incTable.rowsInc
      = [[some 0, some 0], [some 1, some 1], [some 0, some 0],
         [some 1, none], [some 0, some 0]] := by decide
  have hsA : incTable.states (str "A") = [str "X", str "Y"] := by decide
  have hsB : incTable.states (str "B") = [str "X", str "Y"] := by decide
  have hlab : incTable.labels = [str "A", str "B"] := by decide
  have hpaA : copyPairGraph.parents (str "A") = [] := by decide
  have hpaB : copyPairGraph.parents (str "B") = [str "A"] := by decide
  have hiA : idxOf (str "A") [str "A", str "B"] = 0 := by decide
  have hiB : idxOf (str "B") [str "A", str "B"] = 1 := by decide
  rw [emStepInc]
  simp only [List.map_cons, List.map_nil]
  rw [expCounts, expCounts, hpaA, hpaB, hlab, hrows, hsA, hsB, hiA, hiB]
  simp only [List.map_cons, List.map_nil, List.length_cons, List.length_nil]
  have hr2 : List.range 2 = [0, 1] := rfl
  norm_num [cartProd, cfgMatches, List.enum, List.enumFrom, idxOf, hr2]

/-! ## Lemmas for the EM and Structural-EM loops -/

theorem emLoopEv_len (ev : CatTrjsEv) (g : DiGraph) :
    ∀ (fuel : Nat) (m : CTModel), 0 < fuel →
      1 ≤ (emLoopEv ev g fuel m).1.length ∧ (emLoopEv ev g fuel m).1.length ≤ fuel
      ∧ 1 ≤ (emLoopEv ev g fuel m).2.length ∧ (emLoopEv ev g fuel m).2.length ≤ fuel := by
  intro fuel
  induction fuel with
  | zero => intro m h; exact absurd h (lt_irrefl 0)
  | succ n ih =>
    intro m _
    by_cases hm : mStepEv ev g = m
    · simp [emLoopEv, hm]
    · simp only [emLoopEv, if_neg hm, List.length_cons]
      rcases Nat.eq_zero_or_pos n with rfl | hn
      · show 1 ≤ ([] : List CTModel).length + 1 ∧ _
        simp [emLoopEv]
      · have := ih (mStepEv ev g) hn
        omega

theorem hcStep_improves (σ : DiGraph → ℚ) (pk : PK) {g g' : DiGraph}
    (h : hcStep σ pk g = some g') : σ g < σ g' := by
  unfold hcStep at h
  cases hb : (neighborsPK pk g).foldr (fun c acc =>
      match acc with
      | none => some c
      | some b => if σ b < σ c then some c else acc) none with
  | none => rw [hb] at h; exact absurd h (by simp)
  | some b =>
    rw [hb] at h
    dsimp only at h
    by_cases hlt : σ g < σ b
    · rw [if_pos hlt] at h
      cases h
      exact hlt
    · rw [if_neg hlt] at h
      cases h

theorem hcClimb_ge (σ : DiGraph → ℚ) (pk : PK) :
    ∀ (n : Nat) (g : DiGraph), σ g ≤ σ (hcClimb σ pk n g) := by
  intro n
  induction n with
  | zero => intro g; exact le_refl _
  | succ n ih =>
    intro g
    cases hstep : hcStep σ pk g with
    | none => rw [hcClimb, hstep]
    | some g' =>
      rw [hcClimb, hstep]
      exact le_trans (le_of_lt (hcStep_improves σ pk hstep)) (ih g')

theorem semLoop_props (ev : CatTrjsEv) (σ : DiGraph → ℚ) (pk : PK) :
    ∀ (fuel : Nat) (g : DiGraph),
      (((semLoop ev σ pk fuel g).1.map (fun gm => σ gm.1)).Chain' (· ≤ ·))
      ∧ (∀ gm ∈ (semLoop ev σ pk fuel g).1, σ g ≤ σ gm.1)
      ∧ (semLoop ev σ pk fuel g).1.length ≤ fuel
      ∧ (semLoop ev σ pk fuel g).2.length ≤ fuel
      ∧ (0 < fuel → (semLoop ev σ pk fuel g).1 ≠ []
          ∧ (semLoop ev σ pk fuel g).2 ≠ []) := by
  intro fuel
  induction fuel with
  | zero =>
    intro g
    exact ⟨List.chain'_nil, (by intro gm hgm; cases hgm), le_refl 0, le_refl 0,
      fun h => absurd h (lt_irrefl 0)⟩
  | succ n ih =>
    intro g
    by_cases hg : hcClimb σ pk (pk.labels.length * pk.labels.length) g = g
    · simp only [semLoop, if_pos hg, hg]
      refine ⟨?_, ?_, ?_, ?_, ?_⟩
      · simp
      · intro gm hgm
        rcases List.mem_singleton.1 hgm with rfl
        exact le_refl _
      · simp
      · simp
      · intro _
        simp
    · simp only [semLoop, if_neg hg]
      have hge : σ g ≤ σ (hcClimb σ pk (pk.labels.length * pk.labels.length) g) :=
        hcClimb_ge σ pk _ g
      have hrec := ih (hcClimb σ pk (pk.labels.length * pk.labels.length) g)
      refine ⟨?_, ?_, ?_, ?_, ?_⟩
      · rw [List.map_cons]
        rw [List.chain'_cons']
        constructor
        · intro b hb
          cases hsl : (semLoop ev σ pk n (hcClimb σ pk (pk.labels.length * pk.labels.length) g)).1 with
          | nil => rw [hsl] at hb; cases hb
          | cons p ps =>
            rw [hsl] at hb
            simp only [List.map_cons, List.head?_cons, Option.mem_def, Option.some.injEq] at hb
            subst hb
            exact hrec.2.1 p (by rw [hsl]; exact List.mem_cons_self _ _)
        · exact hrec.1
      · intro gm hgm
        rcases List.mem_cons.1 hgm with rfl | hgm'
        · exact hge
        · exact le_trans hge (hrec.2.1 gm hgm')
      · simp only [List.length_cons]
        omega
      · simp only [List.length_cons]
        have := hrec.2.2.2.1
        omega
      · intro _
        exact ⟨List.cons_ne_nil _ _, List.cons_ne_nil _ _⟩

/-! ## Lemmas for model persistence -/

theorem chunkF_flatten {α : Type} {k : Nat} (hk : 0 < k) :
    ∀ (rows : List (List α)) (fuel : Nat), (∀ r ∈ rows, r.length = k) →
      rows.flatten.length ≤ fuel → chunkF k fuel rows.flatten = rows := by
  intro rows
  induction rows with
  | nil => intro fuel _ _; cases fuel <;> rfl
  | cons r rest ih =>
    intro fuel hlen hfuel
    have hr : r.length = k := hlen r (List.mem_cons_self _ _)
    have hrest : ∀ x ∈ rest, x.length = k := fun x hx => hlen x (List.mem_cons_of_mem _ hx)
    rcases r with _ | ⟨a, l⟩
    · rw [← hr] at hk
      exact absurd hk (lt_irrefl 0)
    · have hflat : ((a :: l) :: rest).flatten = (a :: l) ++ rest.flatten := rfl
      rw [hflat] at hfuel ⊢
      rcases fuel with _ | n
      · rw [List.length_append] at hfuel
        omega
      · show chunkF k (n + 1) (a :: (l ++ rest.flatten)) = _
        rw [chunkF]
        have htake : (a :: (l ++ rest.flatten)).take k = a :: l := by
          have h2 := List.take_left (a :: l) rest.flatten
          rw [hr] at h2
          simpa using h2
        have hdrop : (a :: (l ++ rest.flatten)).drop k = rest.flatten := by
          have h2 := List.drop_left (a :: l) rest.flatten
          rw [hr] at h2
          simpa using h2
        rw [htake, hdrop, ih n hrest ?_]
        rw [List.length_append, List.length_cons] at hfuel
        omega

theorem chunk_flatten {α : Type} {k : Nat} (hk : 0 < k) (rows : List (List α))
    (h : ∀ r ∈ rows, r.length = k) : chunk k rows.flatten = rows :=
  chunkF_flatten hk rows _ h (le_refl _)

theorem chunk_flatten_map {k : Nat} (hk : 0 < k)
    (ms : List (List Label × List (List ℚ)))
    (h : ∀ km ∈ ms, ∀ row ∈ km.2, row.length = k) :
    (ms.map (fun km => (km.1, km.2.flatten))).map (fun km => (km.1, chunk k km.2)) = ms := by
  rw [List.map_map]
  refine (List.map_congr_left fun km hkm => ?_).trans (List.map_id _)
  show (km.1, chunk k km.2.flatten) = km
  rw [chunk_flatten hk _ (h km hkm)]

/-! ## Claim theorems for the dataset layer -/

/-- C2 (amended): for every canonical dataset built by `from_pandas` from
labeled input whose observed values lie in the declared categories,
`to_pandas` reproduces the original labels and labeled values exactly and
returns each column's category list canonicalized to sorted order; it is
the exact inverse of `from_pandas` precisely when every declared category
order is already sorted (as with categories inferred from observed data).
Gaussian tables round-trip exactly; trajectory collections additionally
replace each column's categories by the collection-wide union state
space. -/
theorem C2_roundtrip_canonicalized :
    (∀ cols : List CatCol, (∀ c ∈ cols, ∀ v ∈ c.values, v ∈ c.cats) →
      (CatTable.from_pandas cols).to_pandas
        = cols.map (fun c => ⟨c.label, sortDedup c.cats, c.values⟩))
    ∧ (∀ cols : List CatCol, (∀ c ∈ cols, ∀ v ∈ c.values, v ∈ c.cats) →
        (∀ c ∈ cols, c.cats.Pairwise (· < ·)) →
        (CatTable.from_pandas cols).to_pandas = cols)
    ∧ (∀ r : CatTrjRaw, (∀ c ∈ r.cols, ∀ v ∈ c.values, v ∈ c.cats) →
        (∀ c ∈ r.cols, c.cats.Pairwise (· < ·)) →
        (CatTrj.from_pandas r).to_pandas = r)
    ∧ (∀ cols : List GaussCol, (GaussTable.from_pandas cols).to_pandas = cols)
    ∧ (∀ rs : List CatTrjRaw, (CatTrjs.from_pandas rs).to_pandas = rs.map (fun r =>
        ⟨r.times, (List.range ((rs.headD ⟨[], []⟩).cols.length)).map
          (fun k => ⟨(colAt r k).label, unionStates rs k, (colAt r k).values⟩)⟩)) := by
  have htab : ∀ cols : List CatCol, (∀ c ∈ cols, ∀ v ∈ c.values, v ∈ c.cats) →
      (CatTable.from_pandas cols).to_pandas
        = cols.map (fun c => ⟨c.label, sortDedup c.cats, c.values⟩) := by
    intro cols hv
    unfold CatTable.from_pandas CatTable.to_pandas
    rw [List.map_map]
    exact List.map_congr_left (fun c hc => col_roundtrip c (hv c hc))
  have hexact : ∀ cols : List CatCol, (∀ c ∈ cols, ∀ v ∈ c.values, v ∈ c.cats) →
      (∀ c ∈ cols, c.cats.Pairwise (· < ·)) →
      (CatTable.from_pandas cols).to_pandas = cols := by
    intro cols hv hs
    rw [htab cols hv]
    refine (List.map_congr_left (fun c hc => ?_)).trans (List.map_id cols)
    rw [sortDedup_eq_self (hs c hc)]
    rfl
  refine ⟨htab, hexact, ?_, fun _ => rfl, trjs_roundtrip⟩
  intro r hv hs
  show (⟨r.times, (CatTable.from_pandas r.cols).to_pandas⟩ : CatTrjRaw) = r
  rw [hexact r.cols hv hs]

/-- Witness for C2 (amended): the `test_categorical_table` input (declared
categories are the sorted observed values) round-trips exactly. -/
theorem C2_roundtrip_canonicalized_witness :
    (CatTable.from_pandas
      [⟨str "column_1", [str "A", str "B", str "C"],
         [str "A", str "B", str "A", str "C", str "B"]⟩,
       ⟨str "column_2", [str "X", str "Y", str "Z"],
         [str "X", str "Y", str "X", str "Z", str "Y"]⟩]).to_pandas
      = [⟨str "column_1", [str "A", str "B", str "C"],
           [str "A", str "B", str "A", str "C", str "B"]⟩,
         ⟨str "column_2", [str "X", str "Y", str "Z"],
           [str "X", str "Y", str "X", str "Z", str "Y"]⟩] :=
  C2_roundtrip_canonicalized.2.1 _ (by decide) (by decide)

/-- C2 counterexample: on the `test_categorical_trajectories_with_states`
input, whose declared superset `(X, Y, Z, W)` is not in sorted order,
`to_pandas` is not the inverse of `from_pandas` — the declared category
ordering comes back canonicalized to `(W, X, Y, Z)` (the test itself
re-sorts the original categories before comparing). -/
theorem C2_roundtrip_counterexample :
    CatTrjs.to_pandas (CatTrjs.from_pandas trjsDfsStates) ≠ trjsDfsStates := by
  decide

/-- C3 (confirmed): for every categorical column, the canonical state
space is strictly sorted and contains every declared category (observed or
not) and every observed value; and the integer codes of observed values
keep their relative order — if state `s` sorts before state `t`, then
`code s < code t`. -/
theorem C3_states_superset (c : CatCol) :
    c.states.Pairwise (· < ·)
    ∧ (∀ x ∈ c.cats, x ∈ c.states)
    ∧ (∀ x ∈ c.values, x ∈ c.states)
    ∧ (∀ s ∈ c.values, ∀ t ∈ c.values, s < t →
        idxOf s c.states < idxOf t c.states) :=
  ⟨pairwise_sortDedup _,
   fun _ hx => mem_states_of_mem_cats hx,
   fun _ hx => mem_states_of_mem_values hx,
   fun _ hs _ ht hst => idxOf_lt_idxOf_sorted (pairwise_sortDedup _)
     (mem_states_of_mem_values hs) (mem_states_of_mem_values ht) hst⟩

/-- Witness for C3 on the `column_2` column with declared superset
`(X, Y, Z, W)`: the unobserved `W` is in the state space, and the codes of
the observed `X` and `Y` keep their relative order. -/
theorem C3_states_superset_witness :
    (str "W") ∈ column2WithStates.states
    ∧ idxOf (str "X") column2WithStates.states
        < idxOf (str "Y") column2WithStates.states :=
  ⟨(C3_states_superset column2WithStates).2.1 (str "W") (by decide),
   (C3_states_superset column2WithStates).2.2.2 (str "X") (by decide) (str "Y")
     (by decide) (by decide)⟩

/-- C10 (confirmed): on the trajectory-collection test inputs, the integer
codes are the indices into the sorted union state space: with the declared
unobserved states `D` and `W` the coded matrix of each trajectory is
`[[0,1],[0,2],[1,2],[2,2],[2,3]]` (the observed `X` is re-coded as `1`
because the unobserved `W` sorts before it), while without the superset it
is `[[0,0],[0,1],[1,1],[2,1],[2,2]]` (`X` is coded `0`). -/
theorem C10_codes_shift :
    ((CatTrjs.from_pandas trjsDfsStates).trjs.map (fun t => t.table.valuesMatrix)
      = [[[0, 1], [0, 2], [1, 2], [2, 2], [2, 3]],
         [[0, 1], [0, 2], [1, 2], [2, 2], [2, 3]]])
    ∧ ((CatTrjs.from_pandas trjsDfsPlain).trjs.map (fun t => t.table.valuesMatrix)
      = [[[0, 0], [0, 1], [1, 1], [2, 1], [2, 2]],
         [[0, 0], [0, 1], [1, 1], [2, 1], [2, 2]]])
    ∧ column2WithStates.codes.getD 0 0 = 1
    ∧ column2Plain.codes.getD 0 0 = 0 := by
  decide

/-! ## Claim theorem for the separation oracle -/

set_option maxRecDepth 4000 in
/-- C1 (confirmed): in the reference "asia" Bayesian network, every vertex
`x` with a non-empty set of non-descendants `N = V - De(x) - Pa(x) - {x}`
satisfies `is_separator_set [x] N (Pa x) = true`, where separation is
decided by restricting to the ancestral closure of `X ∪ Y ∪ Z`,
moralizing, and testing undirected separation — the Markov condition,
verified exhaustively over all eight vertices. -/
theorem C1_asia_markov_condition :
    asiaGraph.vertices.all (fun x =>
      let nd := asiaGraph.vertices.filter (fun v =>
        decide (v ∉ asiaGraph.descendants x ∧ v ∉ asiaGraph.parents x ∧ v ≠ x))
      nd.isEmpty || asiaGraph.is_separator_set [x] nd (asiaGraph.parents x)) = true := by
  decide

/-! ## Claim theorem for fit/sample consistency -/

/-- C4 (confirmed): fitting a categorical BN with graph `A → B` by maximum
likelihood on any dataset generated by the deterministic copy relation
`B := A` (both binary states observed) yields for node `B` exactly the
identity CPD `P(B=x|A=x) = 1` — in particular within any tolerance of it —
and, for every uniform stream in `[0,1)` and every sample size, the
sampled dataset satisfies `A == B` in every row. -/
theorem C4_copy_fit_sample (avals : List Label)
    (hv : ∀ v ∈ avals, v = str "0" ∨ v = str "1")
    (h0 : str "0" ∈ avals) (h1 : str "1" ∈ avals) :
    (CatBN.fit (copyDataset avals) copyPairGraph).cptOf (str "B") = [[1, 0], [0, 1]]
    ∧ ∀ (us : Nat → Label → ℚ), (∀ i v, 0 ≤ us i v ∧ us i v < 1) → ∀ n : Nat,
        ((CatBN.fit (copyDataset avals) copyPairGraph).sample n us).colCodes (str "A")
          = ((CatBN.fit (copyDataset avals) copyPairGraph).sample n us).colCodes
              (str "B") := by
  constructor
  · show nodeCPT (copyDataset avals) copyPairGraph (str "B") = _
    exact cpt_B_eval avals hv h0 h1
  · intro us hu n
    show (List.range n).map
        (fun i => sampleCell (CatBN.fit (copyDataset avals) copyPairGraph) (us i) 2 (str "A"))
      = (List.range n).map
        (fun i => sampleCell (CatBN.fit (copyDataset avals) copyPairGraph) (us i) 2 (str "B"))
    exact List.map_congr_left
      (fun i _ => (sampleB_eq_sampleA avals hv h0 h1 (us i) (fun v => hu i v)).symm)

/-- Witness for C4 at the concrete copy dataset `A = ["0","1","0"]` with a
constant uniform stream. -/
theorem C4_copy_fit_sample_witness :
    (CatBN.fit (copyDataset [str "0", str "1", str "0"]) copyPairGraph).cptOf (str "B")
        = [[1, 0], [0, 1]]
    ∧ ((CatBN.fit (copyDataset [str "0", str "1", str "0"]) copyPairGraph).sample 2
          (fun _ _ => 1/2)).colCodes (str "A")
        = ((CatBN.fit (copyDataset [str "0", str "1", str "0"]) copyPairGraph).sample 2
          (fun _ _ => 1/2)).colCodes (str "B") :=
  ⟨(C4_copy_fit_sample [str "0", str "1", str "0"] (by decide) (by decide) (by decide)).1,
   (C4_copy_fit_sample [str "0", str "1", str "0"] (by decide) (by decide) (by decide)).2
     (fun _ _ => 1/2) (fun _ _ => by norm_num) 2⟩

/-! ## Claim theorem for incomplete-table fitting -/

/-- C8 (confirmed): fitting a categorical BN on the incomplete test table
(one `NaN` in `B`'s column) excludes the missing cell from the direct
sufficient-statistic counts (`B`'s counts total 4, not 5) and resolves it
by EM without erroring; for every number of EM rounds the fitted
parameters equal the maximum-likelihood estimates over the rows whose
relevant cells are observed: `P(A) = (0.6, 0.4)` and `P(B|A)` the identity
table, exactly as the test asserts. -/
theorem C8_incomplete_fit_em :
    directCounts incTable copyPairGraph (str "B") = [[3, 0], [0, 1]]
    ∧ ∀ iters : Nat,
        (CatBN.fitIncomplete incTable copyPairGraph iters).cptOf (str "A") = [[3/5, 2/5]]
        ∧ (CatBN.fitIncomplete incTable copyPairGraph iters).cptOf (str "B")
            = [[1, 0], [0, 1]] := by
  have hiter : ∀ n, emIterInc incTable copyPairGraph n
      [(str "A", [str "X", str "Y"], [[3/5, 2/5]]),
       (str "B", [str "X", str "Y"], [[1, 0], [0, 1]])]
      = [(str "A", [str "X", str "Y"], [[3/5, 2/5]]),
         (str "B", [str "X", str "Y"], [[1, 0], [0, 1]])] := by
    intro n
    induction n with
    | zero => rfl
    | succ n ih =>
      show emIterInc incTable copyPairGraph n (emStepInc incTable copyPairGraph _) = _
      rw [incTable_em_fixed_point]
      exact ih
  refine ⟨by decide, fun iters => ?_⟩
  have hcpds : (CatBN.fitIncomplete incTable copyPairGraph iters).cpds
      = [(str "A", [str "X", str "Y"], [[3/5, 2/5]]),
         (str "B", [str "X", str "Y"], [[1, 0], [0, 1]])] := by
    show emIterInc incTable copyPairGraph iters
        (copyPairGraph.vertices.map
          (fun v => (v, incTable.states v, directCPT incTable copyPairGraph v))) = _
    rw [incTable_init]
    exact hiter iters
  constructor
  · rw [CatBN.cptOf, hcpds]
    rfl
  · rw [CatBN.cptOf, hcpds]
    rfl

/-! ## Claim theorems for EM and Structural-EM -/

/-- C5 (confirmed): on the two-variable interval evidence (`A`, `B` each
holding `"0"` then `"1"` over disjoint half-open intervals) with graph
`A → B`, `em(evidence, graph, max_iter, seed)` returns a non-empty
ordered list of models and a non-empty ordered list of expectation
snapshots, each of length at most `max_iter`, for every positive budget
and every seed. -/
theorem C5_em_history (maxIter seed : Nat) (h : 0 < maxIter) :
    1 ≤ (em emEvidence copyPairGraph maxIter seed).1.length
    ∧ (em emEvidence copyPairGraph maxIter seed).1.length ≤ maxIter
    ∧ 1 ≤ (em emEvidence copyPairGraph maxIter seed).2.length
    ∧ (em emEvidence copyPairGraph maxIter seed).2.length ≤ maxIter :=
  emLoopEv_len emEvidence copyPairGraph maxIter (initModelEv emEvidence copyPairGraph seed) h

/-- Witness for C5 at the test's arguments `max_iter = 2`, `seed = 42`. -/
theorem C5_em_history_witness :
    1 ≤ (em emEvidence copyPairGraph 2 42).1.length
    ∧ (em emEvidence copyPairGraph 2 42).1.length ≤ 2
    ∧ 1 ≤ (em emEvidence copyPairGraph 2 42).2.length
    ∧ (em emEvidence copyPairGraph 2 42).2.length ≤ 2 :=
  C5_em_history 2 42 (by decide)

/-- C6 (confirmed): on the SEM test's interval evidence under the empty
prior knowledge, for every score function, positive budget and seed: a
hill-climb step accepts a candidate only when it strictly improves the
current score, `sem` returns a non-empty model history, the score
sequence across the recorded models is monotonically non-decreasing, and
every recorded model — the final one in particular — scores at least the
initial empty graph. -/
theorem C6_sem_monotone (σ : DiGraph → ℚ) (maxIter seed : Nat) (h : 0 < maxIter) :
    (∀ g g' : DiGraph, hcStep σ emptyPK g = some g' → σ g < σ g')
    ∧ (sem semEvidence emptyPK σ maxIter seed).1 ≠ []
    ∧ (((sem semEvidence emptyPK σ maxIter seed).1.map (fun gm => σ gm.1)).Chain' (· ≤ ·))
    ∧ (∀ gm ∈ (sem semEvidence emptyPK σ maxIter seed).1,
        σ (DiGraph.empty emptyPK.labels) ≤ σ gm.1) := by
  have hp := semLoop_props semEvidence σ emptyPK maxIter (DiGraph.empty emptyPK.labels)
  exact ⟨fun g g' hstep => hcStep_improves σ emptyPK hstep,
    (hp.2.2.2.2 h).1, hp.1, hp.2.1⟩

/-- Witness for C6 with the parameter-count penalty score at the test's
arguments `max_iter = 2`, `seed = 42`. -/
theorem C6_sem_monotone_witness :
    (∀ g g' : DiGraph, hcStep penaltyScore emptyPK g = some g' →
      penaltyScore g < penaltyScore g')
    ∧ (sem semEvidence emptyPK penaltyScore 2 42).1 ≠ []
    ∧ (((sem semEvidence emptyPK penaltyScore 2 42).1.map
        (fun gm => penaltyScore gm.1)).Chain' (· ≤ ·))
    ∧ (∀ gm ∈ (sem semEvidence emptyPK penaltyScore 2 42).1,
        penaltyScore (DiGraph.empty emptyPK.labels) ≤ penaltyScore gm.1) :=
  C6_sem_monotone penaltyScore 2 42 (by decide)

/-! ## Claim theorem for persistence -/

/-- C7 (confirmed): for every categorical BN, Gaussian BN, and categorical
CTBN (whose tables have one entry per child state, a non-empty state
space), serializing to the persistence document and deserializing back
reproduces the model exactly: equal name and description, equal graph, and
bit-exact equal CPDs respectively CIMs as stored. -/
theorem C7_persistence_roundtrip :
    (∀ m : PersistCatBN,
        (∀ e ∈ m.cpds, 0 < e.2.states.length
          ∧ ∀ row ∈ e.2.table, row.length = e.2.states.length) →
        PersistCatBN.from_document (PersistCatBN.to_document m) = m)
    ∧ (∀ m : PersistGaussBN,
        PersistGaussBN.from_document (PersistGaussBN.to_document m) = m)
    ∧ (∀ m : PersistCatCTBN,
        (∀ e ∈ m.cims, 0 < e.2.states.length
          ∧ ∀ km ∈ e.2.matrices, ∀ row ∈ km.2, row.length = e.2.states.length) →
        PersistCatCTBN.from_document (PersistCatCTBN.to_document m) = m) := by
  refine ⟨fun m hm => ?_, fun m => rfl, fun m hm => ?_⟩
  · obtain ⟨n, d, ⟨vs, es⟩, cpds⟩ := m
    simp only [PersistCatBN.to_document, PersistCatBN.from_document, List.map_map]
    refine congrArg (PersistCatBN.mk n d ⟨vs, es⟩) ?_
    refine (List.map_congr_left fun e he => ?_).trans (List.map_id _)
    obtain ⟨hpos, hrows⟩ := hm e he
    show (e.1, PersistCatCPD.mk e.2.states e.2.parents
        (chunk e.2.states.length e.2.table.flatten)) = e
    rw [chunk_flatten hpos _ hrows]
  · obtain ⟨n, d, ⟨vs, es⟩, cims⟩ := m
    simp only [PersistCatCTBN.to_document, PersistCatCTBN.from_document, List.map_map]
    refine congrArg (PersistCatCTBN.mk n d ⟨vs, es⟩) ?_
    refine (List.map_congr_left fun e he => ?_).trans (List.map_id _)
    obtain ⟨hpos, hmat⟩ := hm e he
    show (e.1, PersistCIM.mk e.2.states e.2.parents
        ((e.2.matrices.map (fun km => (km.1, km.2.flatten))).map
          (fun km => (km.1, chunk e.2.states.length km.2)))) = e
    rw [chunk_flatten_map hpos _ hmat]

/-- Witness for C7: concrete two-node models of each family round-trip
through their persistence documents. -/
theorem C7_persistence_roundtrip_witness :
    PersistCatBN.from_document (PersistCatBN.to_document
      ⟨str "asia", none, ⟨[str "A", str "B"], [(str "A", str "B")]⟩,
       [(str "A", ⟨[str "0", str "1"], [], [[1/2, 1/2]]⟩),
        (str "B", ⟨[str "0", str "1"], [(str "A", [str "0", str "1"])],
          [[1, 0], [0, 1]]⟩)]⟩)
      = ⟨str "asia", none, ⟨[str "A", str "B"], [(str "A", str "B")]⟩,
         [(str "A", ⟨[str "0", str "1"], [], [[1/2, 1/2]]⟩),
          (str "B", ⟨[str "0", str "1"], [(str "A", [str "0", str "1"])],
            [[1, 0], [0, 1]]⟩)]⟩
    ∧ PersistGaussBN.from_document (PersistGaussBN.to_document
        ⟨str "ecoli70", none, ⟨[str "X", str "Y"], [(str "X", str "Y")]⟩,
         [(str "X", ⟨[], 0, 1⟩), (str "Y", ⟨[2], 1, 1/100⟩)]⟩)
      = ⟨str "ecoli70", none, ⟨[str "X", str "Y"], [(str "X", str "Y")]⟩,
         [(str "X", ⟨[], 0, 1⟩), (str "Y", ⟨[2], 1, 1/100⟩)]⟩
    ∧ PersistCatCTBN.from_document (PersistCatCTBN.to_document
        ⟨str "eating", some (str "See: Nodelman et al. (2003)."),
         ⟨[str "A", str "B"], [(str "A", str "B")]⟩,
         [(str "B", ⟨[str "0", str "1"], [(str "A", [str "0", str "1"])],
           [([str "0"], [[-1, 1], [2, -2]]), ([str "1"], [[-3, 3], [4, -4]])]⟩)]⟩)
      = ⟨str "eating", some (str "See: Nodelman et al. (2003)."),
         ⟨[str "A", str "B"], [(str "A", str "B")]⟩,
         [(str "B", ⟨[str "0", str "1"], [(str "A", [str "0", str "1"])],
           [([str "0"], [[-1, 1], [2, -2]]), ([str "1"], [[-3, 3], [4, -4]])]⟩)]⟩ :=
  ⟨C7_persistence_roundtrip.1 _ (by decide),
   C7_persistence_roundtrip.2.1 _,
   C7_persistence_roundtrip.2.2 _ (by decide)⟩

end CausalHub
